import Mathlib

/-!
Verification of the prefix-overlap resolution engine in `disambiguate.py`.

The program resolves overlapping IPv6 prefixes: a binary trie keyed on
address bits is built by inserting `(prefix, label)` pairs in ascending
prefix-length order (`Tree.__setitem__`), and then flattened back into a
disjoint prefix list by a depth-first walk (`List.visit_node`).

Addresses and prefixes are 128-bit values modelled as `Nat` (the Python
code manipulates arbitrary-precision ints obtained from
`int(net.network_address)`).  A prefix is a pair `(pfx, len)` with
`pfx < 2^128`, `len ≤ 128` and the trailing `128 - len` bits of `pfx`
zero (the `ipaddress` module guarantees network addresses).
-/

set_option maxHeartbeats 1000000

/-- A child slot of a trie node: `None` (empty), a further `Node`
(internal), or attached data (a leaf carrying the label string).
In the Python code a `Node` has `child = [None, None]`; a slot holds
`None`, a `Node`, or the `asn` string.  Note Python truthiness: the
code tests slots with `if not node` / `if not node.child[bit]`, which
treats both `None` and the empty string `""` as absent — a slot
holding a leaf with the empty-string label behaves like an empty slot
in those tests. -/
inductive Slot where
  | empty : Slot
  | internal (c0 c1 : Slot) : Slot
  | leaf (asn : String) : Slot
deriving DecidableEq, Repr

/-- Read `node.child[b]` of a node represented as the pair of its two
child slots (`b` is a bit value, `0` or `1`). -/
def getChild (n : Slot × Slot) (b : Nat) : Slot :=
  if b = 1 then n.2 else n.1

/-- Write `node.child[b] = s`. -/
def setChild (n : Slot × Slot) (b : Nat) (s : Slot) : Slot × Slot :=
  if b = 1 then (n.1, s) else (s, n.2)

/-- The node that replaces a leaf met at walk depth `δ` during insertion
(`Tree.__setitem__`, lines 85-91): a fresh node whose child at
`1 - next_bit` holds the old leaf's label, where
`next_bit = (prefix >> (depth - 1)) & 1`; the child at `next_bit` also
holds the old label when `depth > seek_depth - (prefixlen - 2)`
(equivalently `depth > 129 - L`), and is left empty otherwise. -/
def splitNode (pfx L : Nat) (old : String) (δ : Nat) : Slot × Slot :=
  let nextBit := (pfx >>> (δ - 1)) &&& 1
  let fresh := setChild (Slot.empty, Slot.empty) (1 - nextBit) (Slot.leaf old)
  if 129 - L < δ then setChild fresh nextBit (Slot.leaf old) else fresh

/-- The walk of `Tree.__setitem__`, from the current node at walk depth
`depth` (the Python loop variable: the bit position currently consumed;
the walk starts at `seek_depth = 127`).  The Python loop
`for depth in range(127, 127 - (prefixlen-1), -1)` runs while
`depth > 128 - L`; on exit, the label is written into
`node.child[(pfx >> (128 - L)) & 1]` (Python: shift `seek_depth -
(prefixlen - 1)`, which equals `128 - L`), unconditionally overwriting
that slot.  The slot test `if not node.child[bit]` is a Python
truthiness test: an empty slot and a leaf holding the empty string
both count as "does not exist", and are replaced by a fresh node with
two empty children (the empty-string label is dropped, not copied).
On meeting a leaf with a nonempty label the walk replaces it by a new
node, copies the old label into child `1 - next_bit`, and also into
child `next_bit` when `depth > 127 - (prefixlen - 2)`, i.e.
`depth > 129 - L`. -/
def setItemGo (pfx L : Nat) (asn : String) : Nat → Slot × Slot → Slot × Slot
  | 0, node =>
      setChild node ((pfx >>> (128 - L)) &&& 1) (Slot.leaf asn)
  | depth + 1, node =>
      if depth + 1 ≤ 128 - L then
        setChild node ((pfx >>> (128 - L)) &&& 1) (Slot.leaf asn)
      else
        let bit := (pfx >>> (depth + 1)) &&& 1
        let sub : Slot × Slot :=
          match getChild node bit with
          | Slot.empty => (Slot.empty, Slot.empty)
          | Slot.internal c0 c1 => (c0, c1)
          | Slot.leaf old =>
              if old = "" then (Slot.empty, Slot.empty)
              else splitNode pfx L old (depth + 1)
        let sub2 := setItemGo pfx L asn depth sub
        setChild node bit (Slot.internal sub2.1 sub2.2)

/-- Model of `Tree.__setitem__`: insert label `asn` for the prefix
`(pfx, L)` into the trie, whose root node is the pair `t` of the root's
two child slots.  The walk starts at `seek_depth = 127`. -/
def setItem (t : Slot × Slot) (pfx L : Nat) (asn : String) : Slot × Slot :=
  setItemGo pfx L asn 127 t

/-- An input or output record: `((pfx, len), label)`. -/
abbrev Entry := (Nat × Nat) × String

/-- Insert one record (as done by `Tree.load` for each pair produced by
`prefixes.iterate()`). -/
def insEntry (t : Slot × Slot) (e : Entry) : Slot × Slot :=
  setItem t e.1.1 e.1.2 e.2

/-- Model of `Tree.load`: build a trie from a fresh `Tree()` (root node
with two empty child slots) by inserting the records in list order. -/
def buildTree (l : List Entry) : Slot × Slot :=
  l.foldl insEntry (Slot.empty, Slot.empty)

/-- Model of `List.visit_node`: depth-first walk emitting the records
in traversal order.  The guard `if not node: return` is a Python
truthiness test, so an empty slot and a leaf holding the empty string
both contribute nothing; an internal node recurses into child 0 with
the accumulated prefix unchanged and into child 1 with bit
`127 - level` set; a leaf with a nonempty label at `level` emits one
record of length `level`. -/
def visitNode : Slot → Nat → Nat → List Entry
  | Slot.empty, _, _ => []
  | Slot.internal c0 c1, pfx, level =>
      visitNode c0 pfx (level + 1) ++
        visitNode c1 (pfx ||| (1 <<< (127 - level))) (level + 1)
  | Slot.leaf asn, pfx, level =>
      if asn = "" then [] else [((pfx, level), asn)]

/-- Model of `List.reload`'s traversal: visit the root node (the pair of
root child slots) with accumulated prefix `0` at level `0`, collecting
the emitted records in depth-first order. -/
def flattenTree (t : Slot × Slot) : List Entry :=
  visitNode (Slot.internal t.1 t.2) 0 0

/-- Lookup semantics of a trie slot: follow the bits of address `a`
downward (the slot's children consume bit `depth`); an empty slot means
no label, a leaf with a nonempty label applies it to every address
reaching it, and a leaf holding the empty string — falsy in Python,
skipped by the flattener and dropped by later walks — means no label. -/
def lookupSlot : Slot → Nat → Nat → Option String
  | Slot.empty, _, _ => none
  | Slot.leaf asn, _, _ => if asn = "" then none else some asn
  | Slot.internal c0 c1, a, depth =>
      if (a >>> depth) &&& 1 = 1 then lookupSlot c1 a (depth - 1)
      else lookupSlot c0 a (depth - 1)

/-- The label the trie attaches to address `a`: walk from the root,
choosing children by the bits of `a` from bit 127 down. -/
def treeLookup (t : Slot × Slot) (a : Nat) : Option String :=
  lookupSlot (Slot.internal t.1 t.2) a 127

/-- `covers pfx L a`: address `a` lies in the range of the prefix
`(pfx, L)`, i.e. the top `L` bits agree. -/
def covers (pfx L a : Nat) : Prop :=
  a >>> (128 - L) = pfx >>> (128 - L)

instance (pfx L a : Nat) : Decidable (covers pfx L a) := by
  unfold covers; infer_instance

/-- Effective coverage of one insertion: a prefix of length `L ≥ 1`
claims exactly its range; a length-0 prefix (necessarily `::/0`) is
written by the code into the root's bit-0 slot only, so it effectively
claims the `::/1` half.  (`max L 1` folds both cases into one.) -/
def effCovers (pfx L a : Nat) : Prop :=
  covers pfx (max L 1) a

instance (pfx L a : Nat) : Decidable (effCovers pfx L a) := by
  unfold effCovers; infer_instance

/-- Validity of an input record, as guaranteed by
`ipaddress.ip_network`: the address fits in 128 bits, the length is at
most 128, and the bits beyond the prefix length are zero. -/
def validEntry (e : Entry) : Prop :=
  e.1.1 < 2 ^ 128 ∧ e.1.2 ≤ 128 ∧ e.1.1 % 2 ^ (128 - e.1.2) = 0

instance (e : Entry) : Decidable (validEntry e) := by
  unfold validEntry; infer_instance

/-- The set of addresses in the range of a record's prefix. -/
def addrSet (e : Entry) : Set Nat :=
  {a | a < 2 ^ 128 ∧ covers e.1.1 e.1.2 a}

/-- Two records overlap in the sense of the glossary: one prefix's
range is a subset of (or equal to) the other's, i.e. one prefix covers
the other's network address. -/
def overlapE (e1 e2 : Entry) : Prop :=
  covers e1.1.1 e1.1.2 e2.1.1 ∨ covers e2.1.1 e2.1.2 e1.1.1

instance (e1 e2 : Entry) : Decidable (overlapE e1 e2) := by
  unfold overlapE; infer_instance

/-- Model of the store (Python class `List`): 129 buckets indexed by
prefix length. -/
structure PrefixStore where
  levels : List (List Entry)

/-- A fresh store: `[[] for _ in range(129)]`. -/
def PrefixStore.new : PrefixStore :=
  ⟨List.replicate 129 []⟩

/-- Append one record to the bucket of its prefix length
(`self.levels[l].append((net, asn))`). -/
def PrefixStore.add (s : PrefixStore) (net : Nat × Nat) (asn : String) : PrefixStore :=
  ⟨s.levels.set net.2 ((s.levels.getD net.2 []) ++ [(net, asn)])⟩

/-- Model of `List.iterate`: traverse the buckets from length 0 to 128,
yielding each bucket's records in insertion order. -/
def PrefixStore.iterate (s : PrefixStore) : List Entry :=
  s.levels.flatten

/-- Model of `List.reload`: walk the trie depth first and append each
emitted record to the bucket of its emitted length. -/
def PrefixStore.reload (s : PrefixStore) (t : Slot × Slot) : PrefixStore :=
  (flattenTree t).foldl (fun s e => s.add e.1 e.2) s

/-- A parse failure while loading (in the Python code, the exception
raised by `ipaddress.ip_network` or by unpacking the split line). -/
inductive ParseErr where
  | malformed : List String → ParseErr
deriving DecidableEq, Repr

/-- Parse one input line, already split into whitespace-separated
tokens (`line.strip().split()`): the line must consist of exactly a
prefix literal and a label token (`net_str, asn = ...`), and the prefix
literal must parse (`ipaddress.ip_network(net_str)`).  The prefix
parser `pn` is the external `ipaddress` collaborator, kept abstract. -/
def lineParse (pn : String → Option (Nat × Nat)) (tokens : List String) :
    Option ((Nat × Nat) × String) :=
  match tokens with
  | [netStr, asn] =>
      match pn netStr with
      | some net => some (net, asn)
      | none => none
  | _ => none

/-- Model of `List.load`: fold the input lines into the store,
propagating a parse failure of any line as an error that aborts the
whole load (the Python exception propagates out of `load`). -/
def loadLines (pn : String → Option (Nat × Nat)) :
    PrefixStore → List (List String) → Except ParseErr PrefixStore
  | s, [] => Except.ok s
  | s, ln :: rest =>
      match lineParse pn ln with
      | some (net, asn) => loadLines pn (s.add net asn) rest
      | none => Except.error (ParseErr.malformed ln)

/-! ### Arithmetic helpers -/

theorem shiftand_eq (x k : Nat) : (x >>> k) &&& 1 = x / 2 ^ k % 2 := by
  simp [Nat.and_one_is_mod, Nat.shiftRight_eq_div_pow]

theorem mod_succ_div (a k : Nat) : a % 2 ^ (k + 1) / 2 ^ k = a / 2 ^ k % 2 := by
  have h1 : a % 2 ^ (k + 1) = a % 2 ^ k + 2 ^ k * (a / 2 ^ k % 2) := Nat.mod_pow_succ
  have h2 : a % 2 ^ k < 2 ^ k := Nat.mod_lt _ (Nat.pos_pow_of_pos _ (by omega))
  rw [h1, Nat.add_mul_div_left _ _ (Nat.pos_pow_of_pos _ (by omega)),
    Nat.div_eq_of_lt h2]
  omega

theorem div_mod_split (a s m : Nat) (h : s ≤ m) :
    a % 2 ^ (m + 1) / 2 ^ s = a % 2 ^ m / 2 ^ s + 2 ^ (m - s) * (a / 2 ^ m % 2) := by
  have h1 : a % 2 ^ (m + 1) = a % 2 ^ m + 2 ^ m * (a / 2 ^ m % 2) := Nat.mod_pow_succ
  have h2 : (2 : Nat) ^ m = 2 ^ s * 2 ^ (m - s) := by
    rw [← pow_add]; congr 1; omega
  rw [h1, h2, Nat.mul_assoc, Nat.add_mul_div_left _ _ (Nat.pos_pow_of_pos _ (by omega))]

theorem div_lt_pow_sub (a s m : Nat) (h : s ≤ m) : a % 2 ^ m / 2 ^ s < 2 ^ (m - s) := by
  apply Nat.div_lt_of_lt_mul
  calc a % 2 ^ m < 2 ^ m := Nat.mod_lt _ (Nat.pos_pow_of_pos _ (by omega))
    _ = 2 ^ s * 2 ^ (m - s) := by rw [← pow_add]; congr 1; omega

theorem bridge (a p s m : Nat) (h : s ≤ m) :
    a % 2 ^ (m + 1) / 2 ^ s = p % 2 ^ (m + 1) / 2 ^ s ↔
      (a % 2 ^ m / 2 ^ s = p % 2 ^ m / 2 ^ s ∧ a / 2 ^ m % 2 = p / 2 ^ m % 2) := by
  rw [div_mod_split a s m h, div_mod_split p s m h]
  have hA := div_lt_pow_sub a s m h
  have hP := div_lt_pow_sub p s m h
  generalize hga : a % 2 ^ m / 2 ^ s = A at hA ⊢
  generalize hgp : p % 2 ^ m / 2 ^ s = P at hP ⊢
  generalize hgk : (2 : Nat) ^ (m - s) = K at hA hP ⊢
  have hb : a / 2 ^ m % 2 = 0 ∨ a / 2 ^ m % 2 = 1 := by omega
  have hb' : p / 2 ^ m % 2 = 0 ∨ p / 2 ^ m % 2 = 1 := by omega
  rcases hb with hb | hb <;> rcases hb' with hb' | hb' <;> rw [hb, hb'] <;> omega

/-! ### Unfolding equations for the insertion walk -/

theorem setItemGo_base (pfx L : Nat) (x : String) (d : Nat) (n : Slot × Slot)
    (hd : d ≤ 128 - L) :
    setItemGo pfx L x d n = setChild n ((pfx >>> (128 - L)) &&& 1) (Slot.leaf x) := by
  cases d with
  | zero => simp [setItemGo]
  | succ d => simp [setItemGo, hd]

theorem setItemGo_step (pfx L : Nat) (x : String) (d : Nat) (n : Slot × Slot)
    (hd : ¬(d + 1 ≤ 128 - L)) :
    setItemGo pfx L x (d + 1) n =
      (let bit := (pfx >>> (d + 1)) &&& 1
       let sub : Slot × Slot :=
         match getChild n bit with
         | Slot.empty => (Slot.empty, Slot.empty)
         | Slot.internal c0 c1 => (c0, c1)
         | Slot.leaf old =>
             if old = "" then (Slot.empty, Slot.empty)
             else splitNode pfx L old (d + 1)
       let sub2 := setItemGo pfx L x d sub
       setChild n bit (Slot.internal sub2.1 sub2.2)) := by
  simp [setItemGo, hd]

theorem lookup_write (n : Slot × Slot) (a p : Nat) (x : String) (d : Nat) :
    lookupSlot (Slot.internal (setChild n ((p >>> d) &&& 1) (Slot.leaf x)).1
        (setChild n ((p >>> d) &&& 1) (Slot.leaf x)).2) a d =
      if a / 2 ^ d % 2 = p / 2 ^ d % 2 then (if x = "" then none else some x)
      else lookupSlot (Slot.internal n.1 n.2) a d := by
  have hp : p / 2 ^ d % 2 = 0 ∨ p / 2 ^ d % 2 = 1 := by omega
  have ha : a / 2 ^ d % 2 = 0 ∨ a / 2 ^ d % 2 = 1 := by omega
  rcases hp with hp | hp <;> rcases ha with ha | ha <;>
    simp [lookupSlot, setChild, Nat.shiftRight_eq_div_pow, hp, ha]

theorem setChild_zero (n : Slot × Slot) (s : Slot) : setChild n 0 s = (s, n.2) := rfl

theorem setChild_one (n : Slot × Slot) (s : Slot) : setChild n 1 s = (n.1, s) := rfl

theorem getChild_zero (n : Slot × Slot) : getChild n 0 = n.1 := rfl

theorem getChild_one (n : Slot × Slot) : getChild n 1 = n.2 := rfl

theorem lookup_internal_bit0 (A B : Slot) (a d : Nat) (h : a / 2 ^ (d + 1) % 2 = 0) :
    lookupSlot (Slot.internal A B) a (d + 1) = lookupSlot A a d := by
  simp [lookupSlot, Nat.shiftRight_eq_div_pow, h]

theorem lookup_internal_bit1 (A B : Slot) (a d : Nat) (h : a / 2 ^ (d + 1) % 2 = 1) :
    lookupSlot (Slot.internal A B) a (d + 1) = lookupSlot B a d := by
  simp [lookupSlot, Nat.shiftRight_eq_div_pow, h]

/-- Lookup through a split node (the split only happens for a leaf with
a nonempty label), for an address whose next bit differs from the
inserted prefix's next bit, or while the walk still continues: the old
label is read back. -/
theorem lookup_splitNode (pfx L : Nat) (old : String) (a d : Nat) (hold : old ≠ "")
    (h : 129 - L < d + 1 ∨ a / 2 ^ d % 2 ≠ pfx / 2 ^ d % 2) :
    lookupSlot (Slot.internal (splitNode pfx L old (d + 1)).1
      (splitNode pfx L old (d + 1)).2) a d = some old := by
  have hnb : pfx / 2 ^ d % 2 = 0 ∨ pfx / 2 ^ d % 2 = 1 := by omega
  have hab : a / 2 ^ d % 2 = 0 ∨ a / 2 ^ d % 2 = 1 := by omega
  by_cases hg : 129 - L < d + 1 <;> rcases hnb with hnb | hnb <;> rcases hab with hab | hab <;>
    simp [splitNode, setChild, lookupSlot, Nat.shiftRight_eq_div_pow, hg, hnb, hab, hold]
      at h ⊢

/-- Core update lemma for the insertion walk: inserting `(pfx, L)` at
walk depth `d` rewrites the lookup of exactly those addresses agreeing
with `pfx` on bits `d` down to `128 - L` (the written label is
invisible when it is the empty string), and leaves every other
address's lookup unchanged. -/
theorem lookup_setItemGo (pfx L : Nat) (x : String) :
    ∀ d, 128 - L ≤ d → ∀ (n : Slot × Slot) (a : Nat),
      lookupSlot (Slot.internal (setItemGo pfx L x d n).1 (setItemGo pfx L x d n).2) a d =
        if a % 2 ^ (d + 1) / 2 ^ (128 - L) = pfx % 2 ^ (d + 1) / 2 ^ (128 - L)
        then (if x = "" then none else some x)
        else lookupSlot (Slot.internal n.1 n.2) a d := by
  intro d
  induction d with
  | zero =>
    intro hd n a
    have h0 : 128 - L = 0 := by omega
    rw [setItemGo_base pfx L x 0 n (by omega), h0, lookup_write]
    simp
  | succ d ih =>
    intro hd n a
    by_cases hbase : d + 1 ≤ 128 - L
    · -- the walk is already at the final write: d + 1 = 128 - L
      have he : 128 - L = d + 1 := by omega
      rw [setItemGo_base pfx L x (d+1) n hbase, he, lookup_write,
        mod_succ_div a (d+1), mod_succ_div pfx (d+1)]
    · -- a genuine walk step
      rw [setItemGo_step pfx L x d n hbase]
      have hdL : 128 - L ≤ d := by omega
      have hpb : pfx / 2 ^ (d+1) % 2 = 0 ∨ pfx / 2 ^ (d+1) % 2 = 1 := by omega
      have hab : a / 2 ^ (d+1) % 2 = 0 ∨ a / 2 ^ (d+1) % 2 = 1 := by omega
      have hcond := bridge a pfx (128 - L) (d+1) (by omega)
      rcases hpb with hpb | hpb <;> rcases hab with hab | hab
      · -- pfx bit 0, a bit 0: descend into child 0
        rw [shiftand_eq pfx (d+1), hpb]
        simp only [setChild_zero, getChild_zero]
        rw [lookup_internal_bit0 _ _ _ _ hab, lookup_internal_bit0 _ _ _ _ hab, ih hdL]
        simp only [hcond, hab, hpb, eq_self_iff_true, and_true]
        by_cases hcd : a % 2 ^ (d + 1) / 2 ^ (128 - L) = pfx % 2 ^ (d + 1) / 2 ^ (128 - L)
        · simp [hcd]
        · simp only [if_neg hcd]
          cases hn : n.1 with
          | empty => simp [lookupSlot]
          | internal c0 c1 => rfl
          | leaf old =>
            by_cases hold : old = ""
            · subst hold
              simp [lookupSlot]
            · simp only [if_neg hold]
              rw [lookup_splitNode]
              · simp [lookupSlot, hold]
              · exact hold
              · by_cases hg : 129 - L < d + 1
                · exact Or.inl hg
                · right
                  have hdeq : d = 128 - L := by omega
                  intro heq
                  apply hcd
                  rw [← hdeq, mod_succ_div a d, mod_succ_div pfx d]
                  exact heq
      · -- pfx bit 0, a bit 1: unchanged sibling
        rw [shiftand_eq pfx (d+1), hpb]
        simp only [setChild_zero, getChild_zero]
        rw [lookup_internal_bit1 _ _ _ _ hab, lookup_internal_bit1 _ _ _ _ hab]
        simp [hcond, hab, hpb]
      · -- pfx bit 1, a bit 0: unchanged sibling
        rw [shiftand_eq pfx (d+1), hpb]
        simp only [setChild_one, getChild_one]
        rw [lookup_internal_bit0 _ _ _ _ hab, lookup_internal_bit0 _ _ _ _ hab]
        simp [hcond, hab, hpb]
      · -- pfx bit 1, a bit 1: descend into child 1
        rw [shiftand_eq pfx (d+1), hpb]
        simp only [setChild_one, getChild_one]
        rw [lookup_internal_bit1 _ _ _ _ hab, lookup_internal_bit1 _ _ _ _ hab, ih hdL]
        simp only [hcond, hab, hpb, eq_self_iff_true, and_true]
        by_cases hcd : a % 2 ^ (d + 1) / 2 ^ (128 - L) = pfx % 2 ^ (d + 1) / 2 ^ (128 - L)
        · simp [hcd]
        · simp only [if_neg hcd]
          cases hn : n.2 with
          | empty => simp [lookupSlot]
          | internal c0 c1 => rfl
          | leaf old =>
            by_cases hold : old = ""
            · subst hold
              simp [lookupSlot]
            · simp only [if_neg hold]
              rw [lookup_splitNode]
              · simp [lookupSlot, hold]
              · exact hold
              · by_cases hg : 129 - L < d + 1
                · exact Or.inl hg
                · right
                  have hdeq : d = 128 - L := by omega
                  intro heq
                  apply hcd
                  rw [← hdeq, mod_succ_div a d, mod_succ_div pfx d]
                  exact heq

/-! ### Lookup semantics of whole-tree operations -/

theorem lookup_root_bit0 (A B : Slot) (a : Nat) (h : a / 2 ^ 127 % 2 = 0) :
    lookupSlot (Slot.internal A B) a 127 = lookupSlot A a 126 :=
  lookup_internal_bit0 A B a 126 h

theorem lookup_root_bit1 (A B : Slot) (a : Nat) (h : a / 2 ^ 127 % 2 = 1) :
    lookupSlot (Slot.internal A B) a 127 = lookupSlot B a 126 :=
  lookup_internal_bit1 A B a 126 h

theorem treeLookup_empty (a : Nat) : treeLookup (Slot.empty, Slot.empty) a = none := by
  simp [treeLookup, lookupSlot]

/-- Master update lemma for `Tree.__setitem__`: one insertion rewrites
the lookup of exactly the addresses it effectively covers (its range
for `L ≥ 1`; the `::/1` half for the length-0 prefix `::/0`).  The
written label is invisible when it is the empty string (falsy). -/
theorem treeLookup_setItem (t : Slot × Slot) (pfx L : Nat) (x : String) (a : Nat)
    (hp : pfx < 2 ^ 128) (hz : pfx % 2 ^ (128 - L) = 0) (ha : a < 2 ^ 128) :
    treeLookup (setItem t pfx L x) a =
      if effCovers pfx L a then (if x = "" then none else some x) else treeLookup t a := by
  rcases Nat.eq_zero_or_pos L with hL0 | hL1
  · -- length 0: the final write happens immediately at the root's bit-0 slot
    subst hL0
    have hpz : pfx = 0 := by
      rw [show (128 - 0 : Nat) = 128 from rfl, Nat.mod_eq_of_lt hp] at hz
      exact hz
    subst hpz
    have h00 : ((0 : Nat) >>> (128 - 0)) &&& 1 = 0 := by simp
    rw [setItem, setItemGo_base _ _ _ _ _ (by omega), h00, setChild_zero]
    have ha127 : a / 2 ^ 127 < 2 := by
      apply Nat.div_lt_of_lt_mul
      calc a < 2 ^ 128 := ha
        _ = 2 ^ 127 * 2 := by rw [pow_succ]
    have hcv : effCovers 0 0 a ↔ a / 2 ^ 127 % 2 = 0 := by
      have hm : (max 0 1 : Nat) = 1 := rfl
      simp only [effCovers, covers, hm, Nat.shiftRight_eq_div_pow, Nat.zero_div,
        show (128 - 1 : Nat) = 127 from rfl]
      omega
    have hab : a / 2 ^ 127 % 2 = 0 ∨ a / 2 ^ 127 % 2 = 1 := by omega
    rcases hab with hab | hab
    · rw [if_pos (hcv.mpr hab)]
      show lookupSlot (Slot.internal (Slot.leaf x) t.2) a 127 =
        if x = "" then none else some x
      rw [lookup_root_bit0 _ _ _ hab]
      rfl
    · have hnc : ¬ effCovers 0 0 a := fun h => by
        rw [hcv.mp h] at hab; exact absurd hab (by omega)
      rw [if_neg hnc]
      show lookupSlot (Slot.internal (Slot.leaf x) t.2) a 127 =
        lookupSlot (Slot.internal t.1 t.2) a 127
      rw [lookup_root_bit1 _ _ _ hab, lookup_root_bit1 _ _ _ hab]
  · -- length ≥ 1: the general walk lemma applies at the root
    show lookupSlot (Slot.internal (setItemGo pfx L x 127 t).1
      (setItemGo pfx L x 127 t).2) a 127 = _
    rw [lookup_setItemGo pfx L x 127 (by omega)]
    rw [show (127 : Nat) + 1 = 128 from rfl, Nat.mod_eq_of_lt ha, Nat.mod_eq_of_lt hp]
    have hmax : max L 1 = L := by omega
    simp only [effCovers, covers, hmax, Nat.shiftRight_eq_div_pow, treeLookup]

/-- The label the trie gives an address after loading a record list is
the label of the last record in the list effectively covering it —
unless that label is the empty string, which erases the address's
label instead. -/
theorem treeLookup_foldl (l : List Entry) :
    ∀ (t : Slot × Slot) (a : Nat), a < 2 ^ 128 → (∀ e ∈ l, validEntry e) →
    treeLookup (l.foldl insEntry t) a =
      l.foldl (fun acc e => if effCovers e.1.1 e.1.2 a
          then (if e.2 = "" then none else some e.2) else acc)
        (treeLookup t a) := by
  induction l with
  | nil => intro t a _ _; rfl
  | cons e l ih =>
    intro t a ha hv
    have hev : validEntry e := hv e (by simp)
    rw [List.foldl_cons, List.foldl_cons,
      ih (insEntry t e) a ha (fun e' he' => hv e' (by simp [he'])),
      show insEntry t e = setItem t e.1.1 e.1.2 e.2 from rfl,
      treeLookup_setItem t e.1.1 e.1.2 e.2 a hev.1 hev.2.2 ha]

theorem treeLookup_buildTree (l : List Entry) (a : Nat) (ha : a < 2 ^ 128)
    (hv : ∀ e ∈ l, validEntry e) :
    treeLookup (buildTree l) a =
      l.foldl (fun acc e => if effCovers e.1.1 e.1.2 a
          then (if e.2 = "" then none else some e.2) else acc) none := by
  rw [buildTree, treeLookup_foldl l _ a ha hv, treeLookup_empty]

theorem foldl_keep (l : List Entry) (a : Nat) (y : String) (hy : y ≠ "")
    (h : ∀ e ∈ l, effCovers e.1.1 e.1.2 a → e.2 = y) :
    l.foldl (fun acc e => if effCovers e.1.1 e.1.2 a
        then (if e.2 = "" then none else some e.2) else acc)
      (some y) = some y := by
  induction l with
  | nil => rfl
  | cons e l ih =>
    rw [List.foldl_cons]
    by_cases hc : effCovers e.1.1 e.1.2 a
    · rw [if_pos hc, h e (by simp) hc, if_neg hy]
      exact ih (fun e' he' hc' => h e' (by simp [he']) hc')
    · rw [if_neg hc]
      exact ih (fun e' he' hc' => h e' (by simp [he']) hc')

/-! ### Accumulated-prefix arithmetic for the flattening walk -/

theorem covers_iff_div (p L a : Nat) :
    covers p L a ↔ a / 2 ^ (128 - L) = p / 2 ^ (128 - L) := by
  simp [covers, Nat.shiftRight_eq_div_pow]

theorem covers_mono (p M N a : Nat) (h : covers p M a) (hNM : N ≤ M) : covers p N a := by
  rw [covers_iff_div] at h ⊢
  rcases le_or_lt M 128 with hM | hM
  · have he' : 128 - N = (128 - M) + ((M - N) - (M - 128)) := by omega
    rw [he', pow_add, ← Nat.div_div_eq_div_mul, ← Nat.div_div_eq_div_mul, h]
  · have h0 : (128 - M : Nat) = 0 := by omega
    rw [h0, pow_zero, Nat.div_one, Nat.div_one] at h
    rw [h]

theorem div_succ_iff (a b k : Nat) :
    a / 2 ^ k = b / 2 ^ k ↔
      (a / 2 ^ (k + 1) = b / 2 ^ (k + 1) ∧ a / 2 ^ k % 2 = b / 2 ^ k % 2) := by
  have h1 : a / 2 ^ (k + 1) = a / 2 ^ k / 2 := by
    rw [Nat.div_div_eq_div_mul, pow_succ]
  have h2 : b / 2 ^ (k + 1) = b / 2 ^ k / 2 := by
    rw [Nat.div_div_eq_div_mul, pow_succ]
  rw [h1, h2]
  omega

theorem mod_pow_zero_mono (x m k : Nat) (h : x % 2 ^ m = 0) (hk : k ≤ m) :
    x % 2 ^ k = 0 := by
  obtain ⟨q, hq⟩ := Nat.dvd_of_mod_eq_zero h
  subst hq
  have he : (2 : Nat) ^ m = 2 ^ k * 2 ^ (m - k) := by rw [← pow_add]; congr 1; omega
  rw [he, Nat.mul_assoc]
  exact Nat.mul_mod_right _ _

theorem bit_of_mod_pow_succ_zero (x k : Nat) (hx : x % 2 ^ (k + 1) = 0) :
    x / 2 ^ k % 2 = 0 := by
  obtain ⟨q, hq⟩ := Nat.dvd_of_mod_eq_zero hx
  subst hq
  rw [pow_succ, Nat.mul_assoc, Nat.mul_div_cancel_left _ (Nat.two_pow_pos k)]
  omega

theorem bit_of_add_pow (x k : Nat) (hx : x % 2 ^ (k + 1) = 0) :
    (x + 2 ^ k) / 2 ^ k % 2 = 1 := by
  obtain ⟨q, hq⟩ := Nat.dvd_of_mod_eq_zero hx
  subst hq
  rw [pow_succ, Nat.mul_assoc, Nat.mul_add_div (Nat.two_pow_pos k),
    Nat.div_self (Nat.two_pow_pos k)]
  omega

theorem div_add_pow (x k : Nat) (hx : x % 2 ^ (k + 1) = 0) :
    (x + 2 ^ k) / 2 ^ (k + 1) = x / 2 ^ (k + 1) := by
  obtain ⟨q, hq⟩ := Nat.dvd_of_mod_eq_zero hx
  subst hq
  rw [Nat.mul_add_div (Nat.two_pow_pos (k + 1)),
    Nat.div_eq_of_lt (Nat.pow_lt_pow_right (by omega) (by omega)),
    Nat.mul_div_cancel_left _ (Nat.two_pow_pos (k + 1))]
  omega

theorem lor_bit_eq_add (x k : Nat) (hx : x % 2 ^ (k + 1) = 0) :
    x ||| (1 <<< k) = x + 2 ^ k := by
  obtain ⟨q, hq⟩ := Nat.dvd_of_mod_eq_zero hx
  subst hq
  rw [Nat.one_shiftLeft]
  exact (Nat.mul_add_lt_is_or (Nat.pow_lt_pow_right (by omega) (by omega)) q).symm

theorem add_pow_lt (x k : Nat) (hk : k + 1 ≤ 128) (hx : x % 2 ^ (k + 1) = 0)
    (hlt : x < 2 ^ 128) : x + 2 ^ k < 2 ^ 128 := by
  obtain ⟨q, hq⟩ := Nat.dvd_of_mod_eq_zero hx
  subst hq
  have h2 : (2 : Nat) ^ 128 = 2 ^ (k + 1) * 2 ^ (127 - k) := by
    rw [← pow_add]; congr 1; omega
  rw [h2] at hlt ⊢
  have hq' : q < 2 ^ (127 - k) := Nat.lt_of_mul_lt_mul_left hlt
  have : q + 1 ≤ 2 ^ (127 - k) := hq'
  calc 2 ^ (k + 1) * q + 2 ^ k < 2 ^ (k + 1) * q + 2 ^ (k + 1) := by
        have := Nat.pow_lt_pow_right (show 1 < 2 by omega) (show k < k + 1 by omega)
        omega
    _ = 2 ^ (k + 1) * (q + 1) := by ring
    _ ≤ 2 ^ (k + 1) * 2 ^ (127 - k) := Nat.mul_le_mul_left _ this

/-! ### Depth bound on trie nodes -/

/-- `nodeOK s b`: every internal node inside the slot `s` (including `s`
itself) lies within the next `b` levels.  Insertion of a prefix of
length `L` only creates internal nodes down to slot depth `L - 1`, so a
trie built from prefixes of length at most `L` satisfies
`nodeOK child (L - 1)` at each root child. -/
def nodeOK : Slot → Nat → Prop
  | Slot.empty, _ => True
  | Slot.leaf _, _ => True
  | Slot.internal c0 c1, b => 0 < b ∧ nodeOK c0 (b - 1) ∧ nodeOK c1 (b - 1)

theorem nodeOK_mono : ∀ (s : Slot) (b b' : Nat), nodeOK s b → b ≤ b' → nodeOK s b'
  | Slot.empty, _, _, _, _ => trivial
  | Slot.leaf _, _, _, _, _ => trivial
  | Slot.internal c0 c1, b, b', h, hb => by
    obtain ⟨h0, h1, h2⟩ := h
    exact ⟨by omega, nodeOK_mono c0 _ _ h1 (by omega), nodeOK_mono c1 _ _ h2 (by omega)⟩

theorem nodeOK_setChild (n : Slot × Slot) (bit : Nat) (s : Slot) (b : Nat)
    (h1 : nodeOK n.1 b) (h2 : nodeOK n.2 b) (hs : nodeOK s b) :
    nodeOK (setChild n bit s).1 b ∧ nodeOK (setChild n bit s).2 b := by
  by_cases hb : bit = 1 <;> simp [setChild, hb, h1, h2, hs]

theorem nodeOK_splitNode (pfx L : Nat) (old : String) (δ b : Nat) :
    nodeOK (splitNode pfx L old δ).1 b ∧ nodeOK (splitNode pfx L old δ).2 b := by
  have hnb : (pfx >>> (δ - 1)) &&& 1 = 0 ∨ (pfx >>> (δ - 1)) &&& 1 = 1 := by
    rw [shiftand_eq]; omega
  rw [splitNode]
  rcases hnb with hnb | hnb <;> rw [hnb] <;> by_cases hg : 129 - L < δ <;>
    simp [setChild, hg, nodeOK]

/-- The insertion walk only creates internal nodes along its path: the
resulting children of the current node stay within budget
`max b (d - (128 - L))`, where `d - (128 - L)` is the number of walk
steps remaining. -/
theorem nodeOK_setItemGo (pfx L : Nat) (x : String) :
    ∀ d (n : Slot × Slot) b, nodeOK n.1 b → nodeOK n.2 b →
      nodeOK (setItemGo pfx L x d n).1 (max b (d - (128 - L))) ∧
        nodeOK (setItemGo pfx L x d n).2 (max b (d - (128 - L))) := by
  intro d
  induction d with
  | zero =>
    intro n b h1 h2
    rw [setItemGo_base pfx L x 0 n (by omega)]
    exact nodeOK_setChild n _ _ _ (nodeOK_mono _ _ _ h1 (by omega))
      (nodeOK_mono _ _ _ h2 (by omega)) trivial
  | succ d ih =>
    intro n b h1 h2
    by_cases hbase : d + 1 ≤ 128 - L
    · rw [setItemGo_base pfx L x (d + 1) n hbase]
      exact nodeOK_setChild n _ _ _ (nodeOK_mono _ _ _ h1 (by omega))
        (nodeOK_mono _ _ _ h2 (by omega)) trivial
    · rw [setItemGo_step pfx L x d n hbase]
      have hw : 1 ≤ d + 1 - (128 - L) := by omega
      set bit := (pfx >>> (d + 1)) &&& 1 with hbit
      have hsub : nodeOK (match getChild n bit with
          | Slot.empty => (Slot.empty, Slot.empty)
          | Slot.internal c0 c1 => (c0, c1)
          | Slot.leaf old =>
              if old = "" then (Slot.empty, Slot.empty)
              else splitNode pfx L old (d + 1)).1 (b - 1) ∧
          nodeOK (match getChild n bit with
          | Slot.empty => (Slot.empty, Slot.empty)
          | Slot.internal c0 c1 => (c0, c1)
          | Slot.leaf old =>
              if old = "" then (Slot.empty, Slot.empty)
              else splitNode pfx L old (d + 1)).2 (b - 1) := by
        have hg : nodeOK (getChild n bit) b := by
          by_cases h : bit = 1 <;> simp [getChild, h, h1, h2]
        cases hgc : getChild n bit with
        | empty => exact ⟨trivial, trivial⟩
        | internal c0 c1 =>
          rw [hgc] at hg
          exact ⟨hg.2.1, hg.2.2⟩
        | leaf old =>
          by_cases hold : old = ""
          · simp only [if_pos hold]
            exact ⟨trivial, trivial⟩
          · simp only [if_neg hold]
            exact nodeOK_splitNode pfx L old (d + 1) (b - 1)
      have hrec := ih _ (b - 1) hsub.1 hsub.2
      have hle : max (b - 1) (d - (128 - L)) ≤ max b (d + 1 - (128 - L)) - 1 := by omega
      refine nodeOK_setChild n bit _ _ (nodeOK_mono _ _ _ h1 (by omega))
        (nodeOK_mono _ _ _ h2 (by omega)) ?_
      exact ⟨by omega, nodeOK_mono _ _ _ hrec.1 hle, nodeOK_mono _ _ _ hrec.2 hle⟩

/-- Inserting a prefix of length `L ≤ 128` keeps the trie within budget
`max b (L - 1)` at the root children. -/
theorem nodeOK_setItem (t : Slot × Slot) (pfx L : Nat) (x : String) (b : Nat)
    (hL : L ≤ 128) (h1 : nodeOK t.1 b) (h2 : nodeOK t.2 b) :
    nodeOK (setItem t pfx L x).1 (max b (L - 1)) ∧
      nodeOK (setItem t pfx L x).2 (max b (L - 1)) := by
  have h := nodeOK_setItemGo pfx L x 127 t b h1 h2
  have he : max b (127 - (128 - L)) = max b (L - 1) := by omega
  rw [setItem, ← he]
  exact h

theorem nodeOK_foldl (l : List Entry) :
    ∀ t : Slot × Slot, (∀ e ∈ l, e.1.2 ≤ 128) → nodeOK t.1 127 → nodeOK t.2 127 →
      nodeOK (l.foldl insEntry t).1 127 ∧ nodeOK (l.foldl insEntry t).2 127 := by
  induction l with
  | nil => exact fun t _ h1 h2 => ⟨h1, h2⟩
  | cons e l ih =>
    intro t h h1 h2
    rw [List.foldl_cons]
    have hs := nodeOK_setItem t e.1.1 e.1.2 e.2 127 (h e (by simp)) h1 h2
    have hm : max 127 (e.1.2 - 1) = 127 := by
      have := h e (by simp); omega
    rw [hm] at hs
    exact ih _ (fun e' he' => h e' (by simp [he'])) hs.1 hs.2

theorem nodeOK_buildTree (l : List Entry) (h : ∀ e ∈ l, e.1.2 ≤ 128) :
    nodeOK (buildTree l).1 127 ∧ nodeOK (buildTree l).2 127 :=
  nodeOK_foldl l (Slot.empty, Slot.empty) h trivial trivial

/-! ### Flattening: emitted records versus lookup semantics -/

theorem lookupSlot_internal (c0 c1 : Slot) (a D : Nat) :
    lookupSlot (Slot.internal c0 c1) a D =
      if a / 2 ^ D % 2 = 1 then lookupSlot c1 a (D - 1)
      else lookupSlot c0 a (D - 1) := by
  simp [lookupSlot, Nat.shiftRight_eq_div_pow]

theorem visitNode_empty (p l : Nat) : visitNode Slot.empty p l = [] := rfl

theorem visitNode_internal (A B : Slot) (p l : Nat) :
    visitNode (Slot.internal A B) p l =
      visitNode A p (l + 1) ++ visitNode B (p ||| (1 <<< (127 - l))) (l + 1) := rfl

/-- A leaf holding the empty string is falsy in Python: the flattener
emits nothing for it. -/
theorem visitNode_leaf_blank (p l : Nat) : visitNode (Slot.leaf "") p l = [] := by
  rw [visitNode]
  exact if_pos rfl

theorem visitNode_leaf_ne (y : String) (hy : y ≠ "") (p l : Nat) :
    visitNode (Slot.leaf y) p l = [((p, l), y)] := by
  rw [visitNode]
  exact if_neg hy

theorem covers_trans_entry {acc ℓ : Nat} (e : Entry) (a : Nat)
    (hloc : covers acc ℓ e.1.1) (hlen : ℓ ≤ e.1.2) (hcov : covers e.1.1 e.1.2 a) :
    covers acc ℓ a := by
  have h1 : covers e.1.1 ℓ a := covers_mono _ _ _ _ hcov hlen
  rw [covers_iff_div] at h1 hloc ⊢
  rw [h1, hloc]

theorem bit_eq_of_covers_succ {acc ℓ a : Nat} (hℓ : ℓ ≤ 127) (h : covers acc (ℓ + 1) a) :
    a / 2 ^ (127 - ℓ) % 2 = acc / 2 ^ (127 - ℓ) % 2 := by
  rw [covers_iff_div, show 128 - (ℓ + 1) = 127 - ℓ from by omega] at h
  rw [h]

theorem covers_succ_of {acc ℓ a : Nat} (hℓ : ℓ ≤ 127) (hc : covers acc ℓ a)
    (hb : a / 2 ^ (127 - ℓ) % 2 = acc / 2 ^ (127 - ℓ) % 2) : covers acc (ℓ + 1) a := by
  rw [covers_iff_div] at hc ⊢
  rw [show 128 - (ℓ + 1) = 127 - ℓ from by omega]
  rw [show (128 - ℓ) = (127 - ℓ) + 1 from by omega] at hc
  exact (div_succ_iff a acc (127 - ℓ)).mpr ⟨hc, hb⟩

theorem covers_add_pow_iff {acc ℓ : Nat} (x : Nat) (hℓ : ℓ ≤ 127)
    (hmod : acc % 2 ^ (128 - ℓ) = 0) :
    covers (acc + 2 ^ (127 - ℓ)) ℓ x ↔ covers acc ℓ x := by
  have hk : 128 - ℓ = (127 - ℓ) + 1 := by omega
  rw [covers_iff_div, covers_iff_div, hk, div_add_pow acc (127 - ℓ) (hk ▸ hmod)]

/-- Location and validity of the records emitted by `visit_node`: each
record's prefix fits in 128 bits, its length lies between the current
level and 128, its trailing bits are zero, and it lies inside the range
accumulated so far. -/
theorem visitNode_entries (s : Slot) :
    ∀ level acc b, nodeOK s b → level + b ≤ 128 → acc < 2 ^ 128 →
      acc % 2 ^ (128 - level) = 0 →
      ∀ e ∈ visitNode s acc level,
        e.1.1 < 2 ^ 128 ∧ level ≤ e.1.2 ∧ e.1.2 ≤ 128 ∧
          e.1.1 % 2 ^ (128 - e.1.2) = 0 ∧ covers acc level e.1.1 := by
  induction s with
  | empty =>
    intro level acc b _ _ _ _ e he
    simp [visitNode] at he
  | leaf y =>
    intro level acc b _ hlb hacc hmod e he
    by_cases hy : y = ""
    · rw [hy, visitNode_leaf_blank] at he
      simp at he
    · rw [visitNode_leaf_ne y hy] at he
      simp only [List.mem_singleton] at he
      subst he
      exact ⟨hacc, le_refl _, show level ≤ 128 by omega, hmod, rfl⟩
  | internal c0 c1 ih0 ih1 =>
    intro level acc b hok hlb hacc hmod e he
    obtain ⟨hb, hok0, hok1⟩ := hok
    have hl127 : level ≤ 127 := by omega
    have hk : 128 - level = (127 - level) + 1 := by omega
    have hacc1eq : acc ||| (1 <<< (127 - level)) = acc + 2 ^ (127 - level) :=
      lor_bit_eq_add acc (127 - level) (hk ▸ hmod)
    have hmod0 : acc % 2 ^ (128 - (level + 1)) = 0 :=
      mod_pow_zero_mono acc (128 - level) _ hmod (by omega)
    have hmod1 : (acc + 2 ^ (127 - level)) % 2 ^ (128 - (level + 1)) = 0 := by
      have h1 : acc % 2 ^ (127 - level) = 0 :=
        mod_pow_zero_mono acc (128 - level) _ hmod (by omega)
      rw [show (128 - (level + 1)) = 127 - level from by omega, Nat.add_mod_right]
      exact h1
    have hacc1lt : acc + 2 ^ (127 - level) < 2 ^ 128 :=
      add_pow_lt acc (127 - level) (by omega) (hk ▸ hmod) hacc
    simp only [visitNode, List.mem_append] at he
    rcases he with he' | he'
    · obtain ⟨h1, h2, h3, h4, h5⟩ := ih0 (level + 1) acc (b - 1) hok0 (by omega) hacc hmod0 e he'
      exact ⟨h1, by omega, h3, h4, covers_mono acc (level + 1) level e.1.1 h5 (by omega)⟩
    · rw [hacc1eq] at he'
      obtain ⟨h1, h2, h3, h4, h5⟩ :=
        ih1 (level + 1) _ (b - 1) hok1 (by omega) hacc1lt hmod1 e he'
      refine ⟨h1, by omega, h3, h4, ?_⟩
      have h6 : covers (acc + 2 ^ (127 - level)) level e.1.1 :=
        covers_mono _ (level + 1) level _ h5 (by omega)
      exact (covers_add_pow_iff e.1.1 hl127 hmod).mp h6

/-- Soundness of the flattening walk: every address covered by an
emitted record looks up, in the trie, exactly that record's label. -/
theorem visitNode_sound (s : Slot) :
    ∀ level acc b, nodeOK s b → level + b ≤ 128 → acc < 2 ^ 128 →
      acc % 2 ^ (128 - level) = 0 →
      ∀ e ∈ visitNode s acc level, ∀ a, a < 2 ^ 128 → covers e.1.1 e.1.2 a →
        lookupSlot s a (127 - level) = some e.2 := by
  induction s with
  | empty =>
    intro level acc b _ _ _ _ e he
    simp [visitNode] at he
  | leaf y =>
    intro level acc b _ _ _ _ e he a _ _
    by_cases hy : y = ""
    · rw [hy, visitNode_leaf_blank] at he
      simp at he
    · rw [visitNode_leaf_ne y hy] at he
      simp only [List.mem_singleton] at he
      subst he
      simp [lookupSlot, hy]
  | internal c0 c1 ih0 ih1 =>
    intro level acc b hok hlb hacc hmod e he a ha hcov
    obtain ⟨hb, hok0, hok1⟩ := hok
    have hl127 : level ≤ 127 := by omega
    have hk : 128 - level = (127 - level) + 1 := by omega
    have hacc1eq : acc ||| (1 <<< (127 - level)) = acc + 2 ^ (127 - level) :=
      lor_bit_eq_add acc (127 - level) (hk ▸ hmod)
    have hmod0 : acc % 2 ^ (128 - (level + 1)) = 0 :=
      mod_pow_zero_mono acc (128 - level) _ hmod (by omega)
    have hmod1 : (acc + 2 ^ (127 - level)) % 2 ^ (128 - (level + 1)) = 0 := by
      have h1 : acc % 2 ^ (127 - level) = 0 :=
        mod_pow_zero_mono acc (128 - level) _ hmod (by omega)
      rw [show (128 - (level + 1)) = 127 - level from by omega, Nat.add_mod_right]
      exact h1
    have hacc1lt : acc + 2 ^ (127 - level) < 2 ^ 128 :=
      add_pow_lt acc (127 - level) (by omega) (hk ▸ hmod) hacc
    rw [lookupSlot_internal, show (127 - level) - 1 = 127 - (level + 1) from by omega]
    simp only [visitNode, List.mem_append] at he
    rcases he with he' | he'
    · have hent := visitNode_entries c0 (level + 1) acc (b - 1) hok0 (by omega) hacc hmod0 e he'
      have hca : covers acc (level + 1) a :=
        covers_trans_entry e a hent.2.2.2.2 hent.2.1 hcov
      have hbit : a / 2 ^ (127 - level) % 2 = 0 := by
        rw [bit_eq_of_covers_succ hl127 hca,
          bit_of_mod_pow_succ_zero acc (127 - level) (hk ▸ hmod)]
      rw [if_neg (by omega)]
      exact ih0 (level + 1) acc (b - 1) hok0 (by omega) hacc hmod0 e he' a ha hcov
    · rw [hacc1eq] at he'
      have hent := visitNode_entries c1 (level + 1) _ (b - 1) hok1 (by omega) hacc1lt hmod1 e he'
      have hca : covers (acc + 2 ^ (127 - level)) (level + 1) a :=
        covers_trans_entry e a hent.2.2.2.2 hent.2.1 hcov
      have hbit : a / 2 ^ (127 - level) % 2 = 1 := by
        rw [bit_eq_of_covers_succ hl127 hca,
          bit_of_add_pow acc (127 - level) (hk ▸ hmod)]
      rw [if_pos hbit]
      exact ih1 (level + 1) _ (b - 1) hok1 (by omega) hacc1lt hmod1 e he' a ha hcov

/-- Completeness of the flattening walk: every address with a label in
the trie is covered by some emitted record carrying that label. -/
theorem visitNode_complete (s : Slot) :
    ∀ level acc b, nodeOK s b → level + b ≤ 128 → acc < 2 ^ 128 →
      acc % 2 ^ (128 - level) = 0 →
      ∀ a y, a < 2 ^ 128 → covers acc level a →
        lookupSlot s a (127 - level) = some y →
        ∃ e, e ∈ visitNode s acc level ∧ covers e.1.1 e.1.2 a ∧ e.2 = y := by
  induction s with
  | empty =>
    intro level acc b _ _ _ _ a y _ _ hlook
    simp [lookupSlot] at hlook
  | leaf y' =>
    intro level acc b _ _ _ _ a y _ hca hlook
    by_cases hy : y' = ""
    · rw [hy] at hlook
      simp [lookupSlot] at hlook
    · refine ⟨((acc, level), y'), by simp [visitNode_leaf_ne y' hy], hca, ?_⟩
      simpa [lookupSlot, hy] using hlook
  | internal c0 c1 ih0 ih1 =>
    intro level acc b hok hlb hacc hmod a y ha hca hlook
    obtain ⟨hb, hok0, hok1⟩ := hok
    have hl127 : level ≤ 127 := by omega
    have hk : 128 - level = (127 - level) + 1 := by omega
    have hacc1eq : acc ||| (1 <<< (127 - level)) = acc + 2 ^ (127 - level) :=
      lor_bit_eq_add acc (127 - level) (hk ▸ hmod)
    have hmod0 : acc % 2 ^ (128 - (level + 1)) = 0 :=
      mod_pow_zero_mono acc (128 - level) _ hmod (by omega)
    have hmod1 : (acc + 2 ^ (127 - level)) % 2 ^ (128 - (level + 1)) = 0 := by
      have h1 : acc % 2 ^ (127 - level) = 0 :=
        mod_pow_zero_mono acc (128 - level) _ hmod (by omega)
      rw [show (128 - (level + 1)) = 127 - level from by omega, Nat.add_mod_right]
      exact h1
    have hacc1lt : acc + 2 ^ (127 - level) < 2 ^ 128 :=
      add_pow_lt acc (127 - level) (by omega) (hk ▸ hmod) hacc
    rw [lookupSlot_internal, show (127 - level) - 1 = 127 - (level + 1) from by omega] at hlook
    by_cases hbit : a / 2 ^ (127 - level) % 2 = 1
    · rw [if_pos hbit] at hlook
      have hca1 : covers (acc + 2 ^ (127 - level)) (level + 1) a := by
        apply covers_succ_of hl127 ((covers_add_pow_iff a hl127 hmod).mpr hca)
        rw [hbit, bit_of_add_pow acc (127 - level) (hk ▸ hmod)]
      obtain ⟨e, hme, hce, hye⟩ :=
        ih1 (level + 1) _ (b - 1) hok1 (by omega) hacc1lt hmod1 a y ha hca1 hlook
      refine ⟨e, ?_, hce, hye⟩
      simp only [visitNode, List.mem_append]
      right
      rw [hacc1eq]
      exact hme
    · have hbit0 : a / 2 ^ (127 - level) % 2 = 0 := by omega
      rw [if_neg hbit] at hlook
      have hca0 : covers acc (level + 1) a := by
        apply covers_succ_of hl127 hca
        rw [hbit0, bit_of_mod_pow_succ_zero acc (127 - level) (hk ▸ hmod)]
      obtain ⟨e, hme, hce, hye⟩ :=
        ih0 (level + 1) acc (b - 1) hok0 (by omega) hacc hmod0 a y ha hca0 hlook
      exact ⟨e, by simp only [visitNode, List.mem_append]; exact Or.inl hme, hce, hye⟩

/-- Two records with no common covered address. -/
def entDisj (e1 e2 : Entry) : Prop :=
  ∀ a, a < 2 ^ 128 → ¬(covers e1.1.1 e1.1.2 a ∧ covers e2.1.1 e2.1.2 a)

/-- Disjointness of the flattening output: records emitted from
different leaves cover disjoint address ranges. -/
theorem visitNode_disjoint (s : Slot) :
    ∀ level acc b, nodeOK s b → level + b ≤ 128 → acc < 2 ^ 128 →
      acc % 2 ^ (128 - level) = 0 →
      List.Pairwise entDisj (visitNode s acc level) := by
  induction s with
  | empty => intro level acc b _ _ _ _; simp [visitNode]
  | leaf y =>
    intro level acc b _ _ _ _
    by_cases hy : y = ""
    · rw [hy, visitNode_leaf_blank]
      exact List.Pairwise.nil
    · rw [visitNode_leaf_ne y hy]
      simp
  | internal c0 c1 ih0 ih1 =>
    intro level acc b hok hlb hacc hmod
    obtain ⟨hb, hok0, hok1⟩ := hok
    have hl127 : level ≤ 127 := by omega
    have hk : 128 - level = (127 - level) + 1 := by omega
    have hacc1eq : acc ||| (1 <<< (127 - level)) = acc + 2 ^ (127 - level) :=
      lor_bit_eq_add acc (127 - level) (hk ▸ hmod)
    have hmod0 : acc % 2 ^ (128 - (level + 1)) = 0 :=
      mod_pow_zero_mono acc (128 - level) _ hmod (by omega)
    have hmod1 : (acc + 2 ^ (127 - level)) % 2 ^ (128 - (level + 1)) = 0 := by
      have h1 : acc % 2 ^ (127 - level) = 0 :=
        mod_pow_zero_mono acc (128 - level) _ hmod (by omega)
      rw [show (128 - (level + 1)) = 127 - level from by omega, Nat.add_mod_right]
      exact h1
    have hacc1lt : acc + 2 ^ (127 - level) < 2 ^ 128 :=
      add_pow_lt acc (127 - level) (by omega) (hk ▸ hmod) hacc
    simp only [visitNode]
    rw [hacc1eq, List.pairwise_append]
    refine ⟨ih0 (level + 1) acc (b - 1) hok0 (by omega) hacc hmod0,
      ih1 (level + 1) _ (b - 1) hok1 (by omega) hacc1lt hmod1,
      ?_⟩
    intro e1 he1 e2 he2 a ha hcc
    obtain ⟨hc1, hc2⟩ := hcc
    have hent1 := visitNode_entries c0 (level + 1) acc (b - 1) hok0 (by omega) hacc hmod0 e1 he1
    have hent2 := visitNode_entries c1 (level + 1) _ (b - 1) hok1 (by omega) hacc1lt hmod1 e2 he2
    have hca0 : covers acc (level + 1) a :=
      covers_trans_entry e1 a hent1.2.2.2.2 hent1.2.1 hc1
    have hca1 : covers (acc + 2 ^ (127 - level)) (level + 1) a :=
      covers_trans_entry e2 a hent2.2.2.2.2 hent2.2.1 hc2
    have hb0 : a / 2 ^ (127 - level) % 2 = 0 := by
      rw [bit_eq_of_covers_succ hl127 hca0,
        bit_of_mod_pow_succ_zero acc (127 - level) (hk ▸ hmod)]
    have hb1 : a / 2 ^ (127 - level) % 2 = 1 := by
      rw [bit_eq_of_covers_succ hl127 hca1,
        bit_of_add_pow acc (127 - level) (hk ▸ hmod)]
    omega

theorem covers_root (a : Nat) (ha : a < 2 ^ 128) : covers 0 0 a := by
  rw [covers_iff_div, Nat.div_eq_of_lt ha, Nat.zero_div]

theorem flattenTree_entries (t : Slot × Slot) (h1 : nodeOK t.1 127) (h2 : nodeOK t.2 127) :
    ∀ e ∈ flattenTree t,
      e.1.1 < 2 ^ 128 ∧ e.1.2 ≤ 128 ∧ e.1.1 % 2 ^ (128 - e.1.2) = 0 := by
  intro e he
  have h := visitNode_entries (Slot.internal t.1 t.2) 0 0 128
    ⟨by omega, h1, h2⟩ (by omega) (by positivity) (by simp) e he
  exact ⟨h.1, h.2.2.1, h.2.2.2.1⟩

theorem flattenTree_sound (t : Slot × Slot) (h1 : nodeOK t.1 127) (h2 : nodeOK t.2 127) :
    ∀ e ∈ flattenTree t, ∀ a, a < 2 ^ 128 → covers e.1.1 e.1.2 a →
      treeLookup t a = some e.2 := by
  intro e he a ha hc
  exact visitNode_sound (Slot.internal t.1 t.2) 0 0 128
    ⟨by omega, h1, h2⟩ (by omega) (by positivity) (by simp) e he a ha hc

theorem flattenTree_complete (t : Slot × Slot) (h1 : nodeOK t.1 127) (h2 : nodeOK t.2 127) :
    ∀ a y, a < 2 ^ 128 → treeLookup t a = some y →
      ∃ e, e ∈ flattenTree t ∧ covers e.1.1 e.1.2 a ∧ e.2 = y := by
  intro a y ha hl
  exact visitNode_complete (Slot.internal t.1 t.2) 0 0 128
    ⟨by omega, h1, h2⟩ (by omega) (by positivity) (by simp) a y ha (covers_root a ha) hl

theorem flattenTree_disjoint (t : Slot × Slot) (h1 : nodeOK t.1 127) (h2 : nodeOK t.2 127) :
    List.Pairwise entDisj (flattenTree t) :=
  visitNode_disjoint (Slot.internal t.1 t.2) 0 0 128
    ⟨by omega, h1, h2⟩ (by omega) (by positivity) (by simp)

theorem effCovers_eq_covers (p L a : Nat) (hL : 1 ≤ L) :
    effCovers p L a ↔ covers p L a := by
  rw [effCovers, Nat.max_eq_left hL]

theorem foldl_eff_none (l : List Entry) (a : Nat) (hlab : ∀ e ∈ l, e.2 ≠ "") :
    ∀ init : Option String,
      l.foldl (fun acc e => if effCovers e.1.1 e.1.2 a
          then (if e.2 = "" then none else some e.2) else acc) init = none →
      init = none ∧ ∀ e ∈ l, ¬ effCovers e.1.1 e.1.2 a := by
  induction l with
  | nil => intro init h; exact ⟨h, by simp⟩
  | cons e l ih =>
    intro init h
    rw [List.foldl_cons] at h
    obtain ⟨h1, h2⟩ := ih (fun e' he' => hlab e' (by simp [he'])) _ h
    by_cases hc : effCovers e.1.1 e.1.2 a
    · rw [if_pos hc, if_neg (hlab e (by simp))] at h1; exact absurd h1 (by simp)
    · rw [if_neg hc] at h1
      refine ⟨h1, ?_⟩
      intro e' he'
      rcases List.mem_cons.mp he' with rfl | he'
      · exact hc
      · exact h2 e' he'

/-! ### Clean insertion: walks that never meet a leaf -/

/-- `CleanPath pfx L d n`: the insertion walk for `(pfx, L)` starting
at walk depth `d` at node `n` meets no leaf holding a nonempty label,
and its final slot is falsy (empty, or a leaf holding the empty
string — both are absent under Python truthiness).  Under this
condition insertion adds one fresh record to the flattening output. -/
def CleanPath (pfx L : Nat) : Nat → Slot × Slot → Prop
  | 0, n => getChild n ((pfx >>> (128 - L)) &&& 1) = Slot.empty ∨
      getChild n ((pfx >>> (128 - L)) &&& 1) = Slot.leaf ""
  | d + 1, n =>
      if d + 1 ≤ 128 - L then
        getChild n ((pfx >>> (128 - L)) &&& 1) = Slot.empty ∨
          getChild n ((pfx >>> (128 - L)) &&& 1) = Slot.leaf ""
      else
        match getChild n ((pfx >>> (d + 1)) &&& 1) with
        | Slot.empty => True
        | Slot.internal c0 c1 => CleanPath pfx L d (c0, c1)
        | Slot.leaf old => old = ""

theorem CleanPath_emptyPair (pfx L : Nat) :
    ∀ d, CleanPath pfx L d (Slot.empty, Slot.empty) := by
  intro d
  cases d with
  | zero => simp [CleanPath, getChild]
  | succ d =>
    by_cases hbase : d + 1 ≤ 128 - L <;> simp [CleanPath, hbase, getChild]

theorem decomp_pfx (p d : Nat) :
    p = p / 2 ^ (d + 1) * 2 ^ (d + 1) + (p / 2 ^ d % 2) * 2 ^ d + p % 2 ^ d := by
  have h1 := Nat.div_add_mod p (2 ^ d)
  have h2 := Nat.div_add_mod (p / 2 ^ d) 2
  have h3 : p / 2 ^ d / 2 = p / 2 ^ (d + 1) := by
    rw [Nat.div_div_eq_div_mul, pow_succ]
  rw [h3] at h2
  calc p = 2 ^ d * (p / 2 ^ d) + p % 2 ^ d := h1.symm
    _ = 2 ^ d * (2 * (p / 2 ^ (d + 1)) + p / 2 ^ d % 2) + p % 2 ^ d := by rw [h2]
    _ = p / 2 ^ (d + 1) * 2 ^ (d + 1) + (p / 2 ^ d % 2) * 2 ^ d + p % 2 ^ d := by
        rw [pow_succ]; ring

theorem shl_shr_mod (p k : Nat) : ((p >>> k) <<< k) % 2 ^ k = 0 := by
  rw [Nat.shiftLeft_eq, Nat.mul_mod_left]

theorem shl_shr_step0 (p k : Nat) (hb : p / 2 ^ k % 2 = 0) :
    (p >>> (k + 1)) <<< (k + 1) = (p >>> k) <<< k := by
  rw [Nat.shiftLeft_eq, Nat.shiftLeft_eq, Nat.shiftRight_eq_div_pow,
    Nat.shiftRight_eq_div_pow]
  have h2 : p / 2 ^ (k + 1) = p / 2 ^ k / 2 := by
    rw [Nat.div_div_eq_div_mul, pow_succ]
  have h4 : p / 2 ^ k = 2 * (p / 2 ^ k / 2) := by
    have h3 := Nat.div_add_mod (p / 2 ^ k) 2
    omega
  rw [h2]
  calc (p / 2 ^ k / 2) * 2 ^ (k + 1) = (p / 2 ^ k / 2) * (2 ^ k * 2) := by
        rw [show (2 : Nat) ^ (k + 1) = 2 ^ k * 2 from by rw [pow_succ]]
    _ = (2 * (p / 2 ^ k / 2)) * 2 ^ k := by ring
    _ = (p / 2 ^ k) * 2 ^ k := by rw [← h4]

theorem shl_shr_step1 (p k : Nat) (hb : p / 2 ^ k % 2 = 1) :
    (p >>> (k + 1)) <<< (k + 1) + 2 ^ k = (p >>> k) <<< k := by
  rw [Nat.shiftLeft_eq, Nat.shiftLeft_eq, Nat.shiftRight_eq_div_pow,
    Nat.shiftRight_eq_div_pow]
  have h2 : p / 2 ^ (k + 1) = p / 2 ^ k / 2 := by
    rw [Nat.div_div_eq_div_mul, pow_succ]
  have h4 : p / 2 ^ k = 2 * (p / 2 ^ k / 2) + 1 := by
    have h3 := Nat.div_add_mod (p / 2 ^ k) 2
    omega
  rw [h2]
  calc (p / 2 ^ k / 2) * 2 ^ (k + 1) + 2 ^ k
      = (2 * (p / 2 ^ k / 2) + 1) * 2 ^ k := by
        rw [show (2 : Nat) ^ (k + 1) = 2 ^ k * 2 from by rw [pow_succ]]; ring
    _ = (p / 2 ^ k) * 2 ^ k := by rw [← h4]

theorem shl_shr_div (p k : Nat) : ((p >>> k) <<< k) / 2 ^ k = p / 2 ^ k := by
  rw [Nat.shiftLeft_eq, Nat.shiftRight_eq_div_pow,
    Nat.mul_div_cancel _ (Nat.two_pow_pos k)]

/-- The final write of a clean insertion (of a nonempty label) adds
exactly one record to the flattening output: the inserted prefix with
its label. -/
theorem visit_write_clean (pfx L : Nat) (x : String) (hx : x ≠ "") (hL1 : 1 ≤ L)
    (hL : L ≤ 128)
    (hz : pfx % 2 ^ (128 - L) = 0) (n : Slot × Slot) (d : Nat)
    (hd : d = 128 - L) (hd127 : d ≤ 127)
    (hclean : getChild n ((pfx >>> (128 - L)) &&& 1) = Slot.empty ∨
      getChild n ((pfx >>> (128 - L)) &&& 1) = Slot.leaf "") :
    List.Perm
      (visitNode (Slot.internal
          (setChild n ((pfx >>> (128 - L)) &&& 1) (Slot.leaf x)).1
          (setChild n ((pfx >>> (128 - L)) &&& 1) (Slot.leaf x)).2)
        ((pfx >>> (d + 1)) <<< (d + 1)) (127 - d))
      (((pfx, L), x) ::
        visitNode (Slot.internal n.1 n.2) ((pfx >>> (d + 1)) <<< (d + 1)) (127 - d)) := by
  rw [← hd] at hz hclean ⊢
  rw [shiftand_eq] at hclean ⊢
  have hb : pfx / 2 ^ d % 2 = 0 ∨ pfx / 2 ^ d % 2 = 1 := by omega
  have hmodacc : ((pfx >>> (d + 1)) <<< (d + 1)) % 2 ^ (d + 1) = 0 := shl_shr_mod pfx (d + 1)
  rcases hb with hb | hb
  · rw [hb] at hclean ⊢
    rw [getChild_zero] at hclean
    rw [setChild_zero]
    have hdec := decomp_pfx pfx d
    rw [hb, hz] at hdec
    simp only [Nat.zero_mul, Nat.add_zero] at hdec
    have hacc : (pfx >>> (d + 1)) <<< (d + 1) = pfx := by
      rw [Nat.shiftLeft_eq, Nat.shiftRight_eq_div_pow]
      omega
    rcases hclean with hclean | hclean <;>
      rw [hacc, hclean] <;>
      simp only [visitNode_internal, visitNode_empty, visitNode_leaf_blank,
        visitNode_leaf_ne x hx, show 127 - d + 1 = L from by omega, List.nil_append,
        List.singleton_append] <;>
      exact List.Perm.refl _
  · rw [hb] at hclean ⊢
    rw [getChild_one] at hclean
    rw [setChild_one]
    have hacc1 : (pfx >>> (d + 1)) <<< (d + 1) ||| 1 <<< d = pfx := by
      rw [lor_bit_eq_add _ d hmodacc]
      have hdec := decomp_pfx pfx d
      rw [hb, hz] at hdec
      rw [Nat.shiftLeft_eq, Nat.shiftRight_eq_div_pow]
      omega
    rcases hclean with hclean | hclean <;>
      rw [hclean] <;>
      simp only [visitNode_internal, visitNode_empty, visitNode_leaf_blank,
        visitNode_leaf_ne x hx, show 127 - (127 - d) = d from by omega] <;>
      rw [hacc1] <;>
      simp only [show 127 - d + 1 = L from by omega] <;>
      exact List.perm_middle

theorem setItemGo_step_empty (pfx L : Nat) (x : String) (d : Nat) (n : Slot × Slot)
    (hd : ¬(d + 1 ≤ 128 - L)) (hc : getChild n ((pfx >>> (d + 1)) &&& 1) = Slot.empty) :
    setItemGo pfx L x (d + 1) n = setChild n ((pfx >>> (d + 1)) &&& 1)
      (Slot.internal (setItemGo pfx L x d (Slot.empty, Slot.empty)).1
        (setItemGo pfx L x d (Slot.empty, Slot.empty)).2) := by
  rw [Nat.and_one_is_mod] at hc
  simp [setItemGo, hd, hc]

theorem setItemGo_step_internal (pfx L : Nat) (x : String) (d : Nat) (n : Slot × Slot)
    (c0 c1 : Slot) (hd : ¬(d + 1 ≤ 128 - L))
    (hc : getChild n ((pfx >>> (d + 1)) &&& 1) = Slot.internal c0 c1) :
    setItemGo pfx L x (d + 1) n = setChild n ((pfx >>> (d + 1)) &&& 1)
      (Slot.internal (setItemGo pfx L x d (c0, c1)).1
        (setItemGo pfx L x d (c0, c1)).2) := by
  rw [Nat.and_one_is_mod] at hc
  simp [setItemGo, hd, hc]

theorem setItemGo_step_leaf (pfx L : Nat) (x : String) (d : Nat) (n : Slot × Slot)
    (old : String) (hd : ¬(d + 1 ≤ 128 - L))
    (hc : getChild n ((pfx >>> (d + 1)) &&& 1) = Slot.leaf old) (hold : old ≠ "") :
    setItemGo pfx L x (d + 1) n = setChild n ((pfx >>> (d + 1)) &&& 1)
      (Slot.internal (setItemGo pfx L x d (splitNode pfx L old (d + 1))).1
        (setItemGo pfx L x d (splitNode pfx L old (d + 1))).2) := by
  rw [Nat.and_one_is_mod] at hc
  simp [setItemGo, hd, hc, hold]

/-- A slot holding an empty-string leaf is falsy under the walk's
`if not node.child[bit]` test: the walk replaces it by a fresh node
with two empty children, dropping the old label. -/
theorem setItemGo_step_leafE (pfx L : Nat) (x : String) (d : Nat) (n : Slot × Slot)
    (hd : ¬(d + 1 ≤ 128 - L))
    (hc : getChild n ((pfx >>> (d + 1)) &&& 1) = Slot.leaf "") :
    setItemGo pfx L x (d + 1) n = setChild n ((pfx >>> (d + 1)) &&& 1)
      (Slot.internal (setItemGo pfx L x d (Slot.empty, Slot.empty)).1
        (setItemGo pfx L x d (Slot.empty, Slot.empty)).2) := by
  rw [Nat.and_one_is_mod] at hc
  simp [setItemGo, hd, hc]

/-- A clean insertion of a nonempty label changes the flattening output
by exactly one new record, the inserted `((pfx, L), x)` (up to
permutation).  An empty-string leaf met on the path contributes nothing
to either side: it is skipped by the flattener and dropped by the
walk. -/
theorem visit_setItemGo_clean (pfx L : Nat) (x : String) (hx : x ≠ "") (hL1 : 1 ≤ L)
    (hL : L ≤ 128) (hz : pfx % 2 ^ (128 - L) = 0) :
    ∀ d (n : Slot × Slot), 128 - L ≤ d → d ≤ 127 → CleanPath pfx L d n →
      List.Perm
        (visitNode (Slot.internal (setItemGo pfx L x d n).1 (setItemGo pfx L x d n).2)
          ((pfx >>> (d + 1)) <<< (d + 1)) (127 - d))
        (((pfx, L), x) ::
          visitNode (Slot.internal n.1 n.2) ((pfx >>> (d + 1)) <<< (d + 1)) (127 - d)) := by
  intro d
  induction d with
  | zero =>
    intro n hd hd127 hcp
    rw [setItemGo_base pfx L x 0 n (by omega)]
    exact visit_write_clean pfx L x hx hL1 hL hz n 0 (by omega) (by omega) hcp
  | succ d ih =>
    intro n hd hd127 hcp
    by_cases hbase : d + 1 ≤ 128 - L
    · rw [setItemGo_base pfx L x (d + 1) n hbase]
      have hcp' : getChild n ((pfx >>> (128 - L)) &&& 1) = Slot.empty ∨
          getChild n ((pfx >>> (128 - L)) &&& 1) = Slot.leaf "" := by
        have h := hcp
        simp only [CleanPath, if_pos hbase] at h
        exact h
      exact visit_write_clean pfx L x hx hL1 hL hz n (d + 1) (by omega) (by omega) hcp'
    · simp only [CleanPath, if_neg hbase] at hcp
      have hb : pfx / 2 ^ (d + 1) % 2 = 0 ∨ pfx / 2 ^ (d + 1) % 2 = 1 := by omega
      rcases hb with hb | hb
      · -- walk continues into child 0
        have hbit : (pfx >>> (d + 1)) &&& 1 = 0 := by rw [shiftand_eq]; omega
        rw [hbit, getChild_zero] at hcp
        cases hn : n.1 with
        | leaf old =>
          rw [hn] at hcp
          simp only at hcp
          subst hcp
          rw [setItemGo_step_leafE pfx L x d n hbase (by rw [hbit, getChild_zero]; exact hn),
            hbit, setChild_zero]
          simp only [visitNode, show 127 - (d + 1) + 1 = 127 - d from by omega,
            show 127 - (127 - (d + 1)) = d + 1 from by omega]
          rw [shl_shr_step0 pfx (d + 1) hb]
          refine List.Perm.trans
            (List.Perm.append_right _
              (ih (Slot.empty, Slot.empty) (by omega) (by omega)
                (CleanPath_emptyPair pfx L d))) ?_
          simp [visitNode]
        | empty =>
          rw [setItemGo_step_empty pfx L x d n hbase (by rw [hbit, getChild_zero]; exact hn),
            hbit, setChild_zero]
          simp only [visitNode, show 127 - (d + 1) + 1 = 127 - d from by omega,
            show 127 - (127 - (d + 1)) = d + 1 from by omega]
          rw [shl_shr_step0 pfx (d + 1) hb]
          refine List.Perm.trans
            (List.Perm.append_right _
              (ih (Slot.empty, Slot.empty) (by omega) (by omega)
                (CleanPath_emptyPair pfx L d))) ?_
          simp [visitNode]
        | internal c0 c1 =>
          rw [setItemGo_step_internal pfx L x d n c0 c1 hbase
              (by rw [hbit, getChild_zero]; exact hn),
            hbit, setChild_zero]
          rw [hn] at hcp
          simp only at hcp
          simp only [visitNode, show 127 - (d + 1) + 1 = 127 - d from by omega,
            show 127 - (127 - (d + 1)) = d + 1 from by omega]
          rw [shl_shr_step0 pfx (d + 1) hb]
          refine List.Perm.trans
            (List.Perm.append_right _ (ih (c0, c1) (by omega) (by omega) hcp)) ?_
          simp [visitNode]
      · -- walk continues into child 1
        have hbit : (pfx >>> (d + 1)) &&& 1 = 1 := by rw [shiftand_eq]; omega
        rw [hbit, getChild_one] at hcp
        have haccX : (pfx >>> (d + 2)) <<< (d + 2) ||| 1 <<< (d + 1) =
            (pfx >>> (d + 1)) <<< (d + 1) := by
          rw [lor_bit_eq_add _ (d + 1) (shl_shr_mod pfx (d + 2))]
          exact shl_shr_step1 pfx (d + 1) hb
        cases hn : n.2 with
        | leaf old =>
          rw [hn] at hcp
          simp only at hcp
          subst hcp
          rw [setItemGo_step_leafE pfx L x d n hbase (by rw [hbit, getChild_one]; exact hn),
            hbit, setChild_one]
          simp only [visitNode, show 127 - (d + 1) + 1 = 127 - d from by omega,
            show 127 - (127 - (d + 1)) = d + 1 from by omega]
          rw [haccX]
          refine List.Perm.trans
            (List.Perm.append_left _
              (ih (Slot.empty, Slot.empty) (by omega) (by omega)
                (CleanPath_emptyPair pfx L d)))
            (List.Perm.trans List.perm_middle ?_)
          simp [visitNode]
        | empty =>
          rw [setItemGo_step_empty pfx L x d n hbase (by rw [hbit, getChild_one]; exact hn),
            hbit, setChild_one]
          simp only [visitNode, show 127 - (d + 1) + 1 = 127 - d from by omega,
            show 127 - (127 - (d + 1)) = d + 1 from by omega]
          rw [haccX]
          refine List.Perm.trans
            (List.Perm.append_left _
              (ih (Slot.empty, Slot.empty) (by omega) (by omega)
                (CleanPath_emptyPair pfx L d)))
            (List.Perm.trans List.perm_middle ?_)
          simp [visitNode]
        | internal c0 c1 =>
          rw [setItemGo_step_internal pfx L x d n c0 c1 hbase
              (by rw [hbit, getChild_one]; exact hn),
            hbit, setChild_one]
          rw [hn] at hcp
          simp only at hcp
          simp only [visitNode, show 127 - (d + 1) + 1 = 127 - d from by omega,
            show 127 - (127 - (d + 1)) = d + 1 from by omega]
          rw [haccX]
          refine List.Perm.trans
            (List.Perm.append_left _ (ih (c0, c1) (by omega) (by omega) hcp))
            (List.Perm.trans List.perm_middle ?_)
          simp [visitNode]

/-- If no already-emitted record overlaps the prefix about to be
inserted, and the trie is shallow enough (no internal node at or below
the final write position), then the final slot of the walk is falsy:
empty, or a leaf holding the empty string (which emits no record). -/
theorem final_slot_clean (pfx L : Nat)
    (d : Nat) (hd : d = 128 - L) (hd127 : d ≤ 127) (n : Slot × Slot)
    (hok1 : nodeOK n.1 0) (hok2 : nodeOK n.2 0)
    (hnc : ∀ e ∈ visitNode (Slot.internal n.1 n.2) ((pfx >>> (d + 1)) <<< (d + 1)) (127 - d),
      ¬ covers e.1.1 e.1.2 pfx) :
    getChild n ((pfx >>> (128 - L)) &&& 1) = Slot.empty ∨
      getChild n ((pfx >>> (128 - L)) &&& 1) = Slot.leaf "" := by
  rw [← hd, shiftand_eq]
  have hb : pfx / 2 ^ d % 2 = 0 ∨ pfx / 2 ^ d % 2 = 1 := by omega
  rcases hb with hb | hb
  · rw [hb, getChild_zero]
    cases hn : n.1 with
    | empty => exact Or.inl rfl
    | internal c0 c1 => rw [hn] at hok1; exact absurd hok1.1 (by omega)
    | leaf y =>
      by_cases hy : y = ""
      · exact Or.inr (by rw [hy])
      · exfalso
        refine hnc (((pfx >>> (d + 1)) <<< (d + 1), 127 - d + 1), y) ?_ ?_
        · simp [visitNode, hn, hy]
        · rw [covers_iff_div, show 128 - (127 - d + 1) = d from by omega,
            shl_shr_step0 pfx d hb, shl_shr_div]
  · rw [hb, getChild_one]
    cases hn : n.2 with
    | empty => exact Or.inl rfl
    | internal c0 c1 => rw [hn] at hok2; exact absurd hok2.1 (by omega)
    | leaf y =>
      by_cases hy : y = ""
      · exact Or.inr (by rw [hy])
      · exfalso
        refine hnc
          (((pfx >>> (d + 1)) <<< (d + 1) ||| 1 <<< (127 - (127 - d)), 127 - d + 1), y) ?_ ?_
        · simp [visitNode, hn, hy]
        · rw [show 127 - (127 - d) = d from by omega,
            lor_bit_eq_add _ d (shl_shr_mod pfx (d + 1)),
            covers_iff_div, show 128 - (127 - d + 1) = d from by omega,
            shl_shr_step1 pfx d hb, shl_shr_div]

/-- If the trie stays within the depth budget of the prefix about to
be inserted, and no already-emitted record overlaps it, the insertion
walk is clean. -/
theorem CleanPath_establish (pfx L : Nat) (hL1 : 1 ≤ L) (hL : L ≤ 128) :
    ∀ d (n : Slot × Slot), 128 - L ≤ d → d ≤ 127 →
      nodeOK n.1 (d - (128 - L)) → nodeOK n.2 (d - (128 - L)) →
      (∀ e ∈ visitNode (Slot.internal n.1 n.2) ((pfx >>> (d + 1)) <<< (d + 1)) (127 - d),
        ¬ covers e.1.1 e.1.2 pfx) →
      CleanPath pfx L d n := by
  intro d
  induction d with
  | zero =>
    intro n hd hd127 hok1 hok2 hnc
    show getChild n ((pfx >>> (128 - L)) &&& 1) = Slot.empty ∨
      getChild n ((pfx >>> (128 - L)) &&& 1) = Slot.leaf ""
    exact final_slot_clean pfx L 0 (by omega) (by omega) n
      ((show (0 : Nat) - (128 - L) = 0 from by omega) ▸ hok1)
      ((show (0 : Nat) - (128 - L) = 0 from by omega) ▸ hok2) hnc
  | succ d ih =>
    intro n hd hd127 hok1 hok2 hnc
    by_cases hbase : d + 1 ≤ 128 - L
    · have h0 : CleanPath pfx L (d + 1) n =
          (getChild n ((pfx >>> (128 - L)) &&& 1) = Slot.empty ∨
            getChild n ((pfx >>> (128 - L)) &&& 1) = Slot.leaf "") := by
        simp [CleanPath, hbase]
      rw [h0]
      exact final_slot_clean pfx L (d + 1) (by omega) (by omega) n
        ((show d + 1 - (128 - L) = 0 from by omega) ▸ hok1)
        ((show d + 1 - (128 - L) = 0 from by omega) ▸ hok2) hnc
    · simp only [CleanPath, if_neg hbase]
      have hb : pfx / 2 ^ (d + 1) % 2 = 0 ∨ pfx / 2 ^ (d + 1) % 2 = 1 := by omega
      rcases hb with hb | hb
      · have hbit : (pfx >>> (d + 1)) &&& 1 = 0 := by rw [shiftand_eq]; omega
        rw [hbit, getChild_zero]
        cases hn : n.1 with
        | empty => trivial
        | leaf y =>
          by_cases hy : y = ""
          · exact hy
          · exfalso
            refine hnc (((pfx >>> (d + 2)) <<< (d + 2), 127 - (d + 1) + 1), y) ?_ ?_
            · simp [visitNode, hn, hy]
            · rw [covers_iff_div, show 128 - (127 - (d + 1) + 1) = d + 1 from by omega,
                shl_shr_step0 pfx (d + 1) hb, shl_shr_div]
        | internal c0 c1 =>
          rw [hn] at hok1
          refine ih (c0, c1) (by omega) (by omega)
            ((show d + 1 - (128 - L) - 1 = d - (128 - L) from by omega) ▸ hok1.2.1)
            ((show d + 1 - (128 - L) - 1 = d - (128 - L) from by omega) ▸ hok1.2.2) ?_
          intro e he
          refine hnc e ?_
          simp only [visitNode, List.mem_append]
          left
          rw [hn, show 127 - (d + 1) + 1 = 127 - d from by omega,
            shl_shr_step0 pfx (d + 1) hb]
          exact he
      · have hbit : (pfx >>> (d + 1)) &&& 1 = 1 := by rw [shiftand_eq]; omega
        rw [hbit, getChild_one]
        have haccX : (pfx >>> (d + 2)) <<< (d + 2) ||| 1 <<< (d + 1) =
            (pfx >>> (d + 1)) <<< (d + 1) := by
          rw [lor_bit_eq_add _ (d + 1) (shl_shr_mod pfx (d + 2))]
          exact shl_shr_step1 pfx (d + 1) hb
        cases hn : n.2 with
        | empty => trivial
        | leaf y =>
          by_cases hy : y = ""
          · exact hy
          · exfalso
            refine hnc
              (((pfx >>> (d + 2)) <<< (d + 2) |||
                  1 <<< (127 - (127 - (d + 1))), 127 - (d + 1) + 1), y) ?_ ?_
            · simp [visitNode, hn, hy]
            · rw [show 127 - (127 - (d + 1)) = d + 1 from by omega, haccX,
                covers_iff_div, show 128 - (127 - (d + 1) + 1) = d + 1 from by omega,
                shl_shr_div]
        | internal c0 c1 =>
          rw [hn] at hok2
          refine ih (c0, c1) (by omega) (by omega)
            ((show d + 1 - (128 - L) - 1 = d - (128 - L) from by omega) ▸ hok2.2.1)
            ((show d + 1 - (128 - L) - 1 = d - (128 - L) from by omega) ▸ hok2.2.2) ?_
          intro e he
          refine hnc e ?_
          simp only [visitNode, List.mem_append]
          right
          rw [hn, show 127 - (127 - (d + 1)) = d + 1 from by omega, haccX,
            show 127 - (d + 1) + 1 = 127 - d from by omega]
          exact he

theorem flattenTree_setItem_clean (t : Slot × Slot) (pfx L : Nat) (x : String)
    (hx : x ≠ "") (hL1 : 1 ≤ L) (hL : L ≤ 128) (hp : pfx < 2 ^ 128)
    (hz : pfx % 2 ^ (128 - L) = 0)
    (hok1 : nodeOK t.1 (L - 1)) (hok2 : nodeOK t.2 (L - 1))
    (hnc : ∀ e ∈ flattenTree t, ¬ covers e.1.1 e.1.2 pfx) :
    List.Perm (flattenTree (setItem t pfx L x)) (((pfx, L), x) :: flattenTree t) := by
  have hacc0 : (pfx >>> (127 + 1)) <<< (127 + 1) = 0 := by
    rw [Nat.shiftRight_eq_div_pow, Nat.div_eq_of_lt hp, Nat.zero_shiftLeft]
  have hcp : CleanPath pfx L 127 t := by
    apply CleanPath_establish pfx L hL1 hL 127 t (by omega) (by omega)
      ((show (127 : Nat) - (128 - L) = L - 1 from by omega) ▸ hok1)
      ((show (127 : Nat) - (128 - L) = L - 1 from by omega) ▸ hok2)
    rw [hacc0]
    exact hnc
  have h := visit_setItemGo_clean pfx L x hx hL1 hL hz 127 t (by omega) (by omega) hcp
  rw [hacc0] at h
  exact h

/-- Building a trie from pairwise non-overlapping records of ascending
length and nonempty labels never splits a leaf: the flattening output
is, up to order, exactly the records already present plus the new
ones. -/
theorem buildClean (l : List Entry) :
    ∀ (t : Slot × Slot) (prev : List Entry) (B : Nat),
      (∀ e ∈ l, validEntry e ∧ 1 ≤ e.1.2) →
      (∀ e ∈ l, e.2 ≠ "") →
      List.Pairwise (fun e1 e2 : Entry => e1.1.2 ≤ e2.1.2) l →
      List.Pairwise (fun e1 e2 : Entry => ¬ overlapE e1 e2) l →
      (∀ e ∈ prev, ∀ e' ∈ l, ¬ covers e.1.1 e.1.2 e'.1.1) →
      nodeOK t.1 B → nodeOK t.2 B → (∀ e' ∈ l, B ≤ e'.1.2 - 1) →
      List.Perm (flattenTree t) prev →
      List.Perm (flattenTree (l.foldl insEntry t)) (prev ++ l) := by
  induction l with
  | nil =>
    intro t prev B _ _ _ _ _ _ _ _ hperm
    simpa using hperm
  | cons p l ih =>
    intro t prev B hv hnb hsort hdisj hcross hok1 hok2 hB hperm
    obtain ⟨⟨hp_lt, hp_le, hp_mod⟩, hp_one⟩ := hv p (by simp)
    rw [List.foldl_cons]
    have hstep : List.Perm (flattenTree (insEntry t p)) (((p.1.1, p.1.2), p.2) :: flattenTree t) := by
      apply flattenTree_setItem_clean t p.1.1 p.1.2 p.2 (hnb p (by simp))
        hp_one hp_le hp_lt hp_mod
        (nodeOK_mono _ _ _ hok1 (by have := hB p (by simp); omega))
        (nodeOK_mono _ _ _ hok2 (by have := hB p (by simp); omega))
      intro e he
      exact hcross e (hperm.mem_iff.mp he) p (by simp)
    have hok' := nodeOK_setItem t p.1.1 p.1.2 p.2 B hp_le hok1 hok2
    have hstep' : List.Perm (flattenTree (insEntry t p)) (prev ++ [p]) := by
      refine hstep.trans ?_
      refine List.Perm.trans ?_ List.perm_middle.symm
      simp
      exact hperm
    refine List.Perm.trans
      (ih (insEntry t p) (prev ++ [p]) (max B (p.1.2 - 1))
        (fun e he => hv e (by simp [he]))
        (fun e he => hnb e (by simp [he]))
        (List.pairwise_cons.mp hsort).2
        (List.pairwise_cons.mp hdisj).2
        ?cross hok'.1 hok'.2 ?bud hstep') ?fin
    case cross =>
      intro e he e' he'
      rcases List.mem_append.mp he with he | he
      · exact hcross e he e' (by simp [he'])
      · have : e = p := by simpa using he
        subst this
        have hno := (List.pairwise_cons.mp hdisj).1 e' he'
        intro hc
        exact hno (Or.inl hc)
    case bud =>
      intro e' he'
      have h1 := hB e' (by simp [he'])
      have h2 := (List.pairwise_cons.mp hsort).1 e' he'
      omega
    case fin =>
      rw [List.append_assoc]
      simp

/-! ### Store well-formedness: buckets indexed by prefix length -/

/-- The bucket at offset `i` of a well-formed bucket list starting at
length `k` holds only records of length `k + i`. -/
def WFFrom : Nat → List (List Entry) → Prop
  | _, [] => True
  | k, b :: rest => (∀ e ∈ b, e.1.2 = k) ∧ WFFrom (k + 1) rest

/-- A well-formed store: 129 buckets, bucket `l` holding only records
of prefix length `l`. -/
def WF (s : PrefixStore) : Prop :=
  s.levels.length = 129 ∧ WFFrom 0 s.levels

theorem WFFrom_replicate : ∀ (n k : Nat), WFFrom k (List.replicate n ([] : List Entry))
  | 0, _ => trivial
  | n + 1, k => ⟨by simp, WFFrom_replicate n (k + 1)⟩

theorem WF_new : WF PrefixStore.new :=
  ⟨by simp [PrefixStore.new], WFFrom_replicate 129 0⟩

theorem WFFrom_getD : ∀ (ls : List (List Entry)) (k i : Nat), WFFrom k ls →
    ∀ e ∈ ls.getD i [], e.1.2 = k + i := by
  intro ls
  induction ls with
  | nil => intro k i _ e he; simp at he
  | cons b rest ih =>
    intro k i hwf e he
    cases i with
    | zero => simpa using hwf.1 e (by simpa using he)
    | succ i =>
      have := ih (k + 1) i hwf.2 e (by simpa using he)
      omega

theorem WFFrom_set : ∀ (ls : List (List Entry)) (k i : Nat) (x : List Entry),
    WFFrom k ls → (∀ e ∈ x, e.1.2 = k + i) → WFFrom k (ls.set i x) := by
  intro ls
  induction ls with
  | nil => intro k i x _ _; exact trivial
  | cons b rest ih =>
    intro k i x hwf hx
    cases i with
    | zero => exact ⟨fun e he => by simpa using hx e he, hwf.2⟩
    | succ i =>
      exact ⟨hwf.1, ih (k + 1) i x hwf.2 (fun e he => by have := hx e he; omega)⟩

theorem WF_add (s : PrefixStore) (net : Nat × Nat) (asn : String) (h : WF s) :
    WF (s.add net asn) := by
  refine ⟨by simpa [PrefixStore.add] using h.1, ?_⟩
  apply WFFrom_set s.levels 0 net.2 _ h.2
  intro e he
  rcases List.mem_append.mp he with he | he
  · simpa using WFFrom_getD s.levels 0 net.2 h.2 e he
  · simp at he
    subst he
    simp

theorem pairwise_of_const_len (b : List Entry) (k : Nat) (h : ∀ e ∈ b, e.1.2 = k) :
    List.Pairwise (fun e1 e2 : Entry => e1.1.2 ≤ e2.1.2) b := by
  induction b with
  | nil => exact List.Pairwise.nil
  | cons e b ih =>
    refine List.Pairwise.cons ?_ (ih (fun e' he' => h e' (by simp [he'])))
    intro e' he'
    rw [h e (by simp), h e' (by simp [he'])]

theorem WFFrom_flatten_ge : ∀ (ls : List (List Entry)) (k : Nat), WFFrom k ls →
    ∀ e ∈ ls.flatten, k ≤ e.1.2 := by
  intro ls
  induction ls with
  | nil => intro k _ e he; simp at he
  | cons b rest ih =>
    intro k hwf e he
    rw [List.flatten_cons] at he
    rcases List.mem_append.mp he with he | he
    · rw [hwf.1 e he]
    · have := ih (k + 1) hwf.2 e he
      omega

theorem WFFrom_flatten_sorted : ∀ (ls : List (List Entry)) (k : Nat), WFFrom k ls →
    List.Pairwise (fun e1 e2 : Entry => e1.1.2 ≤ e2.1.2) ls.flatten := by
  intro ls
  induction ls with
  | nil => intro k _; simp
  | cons b rest ih =>
    intro k hwf
    rw [List.flatten_cons, List.pairwise_append]
    refine ⟨pairwise_of_const_len b k hwf.1, ih (k + 1) hwf.2, ?_⟩
    intro e1 he1 e2 he2
    have h1 := hwf.1 e1 he1
    have h2 := WFFrom_flatten_ge rest (k + 1) hwf.2 e2 he2
    omega

theorem WF_iterate_sorted (s : PrefixStore) (h : WF s) :
    List.Pairwise (fun e1 e2 : Entry => e1.1.2 ≤ e2.1.2) s.iterate :=
  WFFrom_flatten_sorted s.levels 0 h.2

theorem WF_foldl_add (l : List Entry) :
    ∀ s : PrefixStore, WF s → WF (l.foldl (fun s e => s.add e.1 e.2) s) := by
  induction l with
  | nil => exact fun s h => h
  | cons e l ih => exact fun s h => ih _ (WF_add s e.1 e.2 h)

theorem WF_reload (s : PrefixStore) (t : Slot × Slot) (h : WF s) : WF (s.reload t) :=
  WF_foldl_add (flattenTree t) s h

theorem loadLines_WF (pn : String → Option (Nat × Nat)) :
    ∀ (lines : List (List String)) (s s' : PrefixStore),
      WF s → loadLines pn s lines = Except.ok s' → WF s' := by
  intro lines
  induction lines with
  | nil =>
    intro s s' h hok
    simp only [loadLines] at hok
    cases hok
    exact h
  | cons ln rest ih =>
    intro s s' h hok
    simp only [loadLines] at hok
    cases hpn : lineParse pn ln with
    | none => rw [hpn] at hok; cases hok
    | some v => rw [hpn] at hok; exact ih _ _ (WF_add s v.1 v.2 h) hok

theorem foldl_eff_stay (l : List Entry) (a : Nat)
    (h : ∀ e ∈ l, ¬ effCovers e.1.1 e.1.2 a) :
    ∀ init : Option String,
      l.foldl (fun acc e => if effCovers e.1.1 e.1.2 a
          then (if e.2 = "" then none else some e.2) else acc) init = init := by
  induction l with
  | nil => intro init; rfl
  | cons e l ih =>
    intro init
    rw [List.foldl_cons, if_neg (h e (by simp))]
    exact ih (fun e' he' => h e' (by simp [he'])) init

/-- C1 as stated is falsified by an empty-string label on the narrower
prefix: with inputs `8000::/1` ↦ "x" and `C000::/2` ↦ "" (both
covering the address `C000::`), the final write stores the empty
string, the flattener skips the falsy leaf, and no output record
covers the address at all — so no output label can equal the narrower
prefix's label there. -/
theorem claim_C1_counterexample :
    covers (2 ^ 127) 1 (2 ^ 127 + 2 ^ 126) ∧
    covers (2 ^ 127 + 2 ^ 126) 2 (2 ^ 127 + 2 ^ 126) ∧
    ∀ o ∈ flattenTree (buildTree [((2 ^ 127, 1), "x"), ((2 ^ 127 + 2 ^ 126, 2), "")]),
      ¬ covers o.1.1 o.1.2 (2 ^ 127 + 2 ^ 126) := by
  refine ⟨by decide, by decide, by decide⟩

/-- C1 (narrowest wins), amended: for records loaded in ascending
prefix-length order, any address covered by both a broader and a
narrower input prefix — the narrower one being of maximal length among
the covering inputs, with an unambiguous *nonempty* label — carries,
in the flattened output, the narrower prefix's label: some output
record covers the address, and every output record covering it carries
that label.  (An empty-string label is falsy in Python and erases the
address's coverage instead.) -/
theorem claim_C1_amended (l : List Entry)
    (hv : ∀ e ∈ l, validEntry e)
    (hsort : List.Pairwise (fun e1 e2 : Entry => e1.1.2 ≤ e2.1.2) l)
    (a : Nat) (ha : a < 2 ^ 128) (e1 e2 : Entry)
    (he1 : e1 ∈ l) (he2 : e2 ∈ l)
    (hc1 : covers e1.1.1 e1.1.2 a) (hc2 : covers e2.1.1 e2.1.2 a)
    (hlt : e1.1.2 < e2.1.2) (hne : e2.2 ≠ "")
    (hmax : ∀ e ∈ l, covers e.1.1 e.1.2 a → e.1.2 ≤ e2.1.2)
    (huniq : ∀ e ∈ l, covers e.1.1 e.1.2 a → e.1.2 = e2.1.2 → e.2 = e2.2) :
    (∃ o ∈ flattenTree (buildTree l), covers o.1.1 o.1.2 a) ∧
      (∀ o ∈ flattenTree (buildTree l), covers o.1.1 o.1.2 a → o.2 = e2.2) := by
  have hL2 : 1 ≤ e2.1.2 := by omega
  have hok := nodeOK_buildTree l (fun e he => (hv e he).2.1)
  have hmain : treeLookup (buildTree l) a = some e2.2 := by
    rw [treeLookup_buildTree l a ha hv]
    obtain ⟨u, v, rfl⟩ := List.append_of_mem he2
    rw [List.foldl_append, List.foldl_cons,
      if_pos ((effCovers_eq_covers _ _ _ hL2).mpr hc2), if_neg hne]
    refine foldl_keep v a e2.2 hne ?_
    intro e hev hce
    have hel : e ∈ u ++ e2 :: v := by simp [hev]
    have hlen_ge : e2.1.2 ≤ e.1.2 :=
      (List.pairwise_cons.mp (List.pairwise_append.mp hsort).2.1).1 e hev
    have hcov : covers e.1.1 e.1.2 a := (effCovers_eq_covers _ _ _ (by omega)).mp hce
    exact huniq e hel hcov (le_antisymm (hmax e hel hcov) hlen_ge)
  constructor
  · obtain ⟨o, ho, hoc, _⟩ := flattenTree_complete _ hok.1 hok.2 a e2.2 ha hmain
    exact ⟨o, ho, hoc⟩
  · intro o ho hoc
    have hs := flattenTree_sound _ hok.1 hok.2 o ho a ha hoc
    rw [hmain] at hs
    exact (Option.some.inj hs).symm

/-- C2 (disjointness): any two distinct records emitted by the
flattener have disjoint address ranges, and neither range is a subset
of the other. -/
theorem claim_C2_output_disjoint (l : List Entry) (hlen : ∀ e ∈ l, e.1.2 ≤ 128) :
    List.Pairwise (fun o1 o2 : Entry =>
        Disjoint (addrSet o1) (addrSet o2) ∧
          ¬ addrSet o1 ⊆ addrSet o2 ∧ ¬ addrSet o2 ⊆ addrSet o1)
      (flattenTree (buildTree l)) := by
  have hok := nodeOK_buildTree l hlen
  have hdisj := flattenTree_disjoint _ hok.1 hok.2
  have hent := flattenTree_entries _ hok.1 hok.2
  refine List.Pairwise.imp_of_mem ?_ hdisj
  intro o1 o2 h1 h2 hd
  have hne1 : o1.1.1 ∈ addrSet o1 := ⟨(hent o1 h1).1, rfl⟩
  have hne2 : o2.1.1 ∈ addrSet o2 := ⟨(hent o2 h2).1, rfl⟩
  refine ⟨Set.disjoint_left.mpr ?_, ?_, ?_⟩
  · rintro a ⟨ha, hc1⟩ ⟨_, hc2⟩
    exact hd a ha ⟨hc1, hc2⟩
  · intro hsub
    obtain ⟨ha, hc2⟩ := hsub hne1
    exact hd o1.1.1 ha ⟨rfl, hc2⟩
  · intro hsub
    obtain ⟨ha, hc1⟩ := hsub hne2
    exact hd o2.1.1 ha ⟨hc1, rfl⟩

/-- C3 as stated is falsified twice over.  By the single input `::/0`:
the code writes a length-0 prefix only into the root's bit-0 slot, so
the upper half of the address space, covered by the input, is absent
from the output.  And by the single input `8000::/1` ↦ "": the
empty-string leaf is falsy, the flattener emits nothing, and the whole
input range is lost. -/
theorem claim_C3_counterexample :
    (¬ ((⋃ e ∈ flattenTree (buildTree [((0, 0), "X")]), addrSet e) =
        ⋃ e ∈ [(((0 : Nat), (0 : Nat)), "X")], addrSet e)) ∧
    (¬ ((⋃ e ∈ flattenTree (buildTree [((2 ^ 127, 1), "")]), addrSet e) =
        ⋃ e ∈ [(((2 ^ 127 : Nat), (1 : Nat)), "")], addrSet e)) := by
  constructor
  · intro h
    have hmem : (2 ^ 127 : Nat) ∈ ⋃ e ∈ [(((0 : Nat), (0 : Nat)), "X")], addrSet e := by
      simp only [Set.mem_iUnion, List.mem_singleton]
      exact ⟨((0, 0), "X"), rfl, by decide, by decide⟩
    rw [← h] at hmem
    have hfl : flattenTree (buildTree [(((0 : Nat), (0 : Nat)), "X")]) = [((0, 1), "X")] := by
      decide
    rw [hfl] at hmem
    simp only [Set.mem_iUnion, List.mem_singleton] at hmem
    obtain ⟨e, rfl, _, hcv⟩ := hmem
    exact absurd hcv (by decide)
  · intro h
    have hmem : (2 ^ 127 : Nat) ∈ ⋃ e ∈ [(((2 ^ 127 : Nat), (1 : Nat)), "")], addrSet e := by
      simp only [Set.mem_iUnion, List.mem_singleton]
      exact ⟨((2 ^ 127, 1), ""), rfl, by decide, by decide⟩
    rw [← h] at hmem
    have hfl : flattenTree (buildTree [(((2 ^ 127 : Nat), (1 : Nat)), "")]) = [] := by
      decide
    rw [hfl] at hmem
    simp at hmem

/-- C3 (coverage preservation), amended: provided every input prefix
has length at least 1 and every input label is nonempty, the union of
address ranges of the flattened output equals the union of address
ranges of the input set.  (A length-0 prefix loses its upper half; an
empty-string label is falsy and loses its whole range.) -/
theorem claim_C3_amended (l : List Entry)
    (hv : ∀ e ∈ l, validEntry e) (h1 : ∀ e ∈ l, 1 ≤ e.1.2)
    (hlab : ∀ e ∈ l, e.2 ≠ "") :
    (⋃ e ∈ flattenTree (buildTree l), addrSet e) = ⋃ e ∈ l, addrSet e := by
  have hok := nodeOK_buildTree l (fun e he => (hv e he).2.1)
  ext a
  simp only [Set.mem_iUnion, exists_prop]
  constructor
  · rintro ⟨e, he, ha128, hcov⟩
    have hl := flattenTree_sound _ hok.1 hok.2 e he a ha128 hcov
    rw [treeLookup_buildTree l a ha128 hv] at hl
    by_contra hne
    have hnc : ∀ e' ∈ l, ¬ effCovers e'.1.1 e'.1.2 a := by
      intro e' he' hce
      exact hne ⟨e', he', ha128,
        (effCovers_eq_covers _ _ _ (h1 e' he')).mp hce⟩
    rw [foldl_eff_stay l a hnc none] at hl
    cases hl
  · rintro ⟨e, he, ha128, hcov⟩
    have heff : effCovers e.1.1 e.1.2 a :=
      (effCovers_eq_covers _ _ _ (h1 e he)).mpr hcov
    have hlk := treeLookup_buildTree l a ha128 hv
    cases hres : treeLookup (buildTree l) a with
    | none =>
      rw [hres] at hlk
      exact absurd heff ((foldl_eff_none l a hlab none hlk.symm).2 e he)
    | some y =>
      obtain ⟨o, ho, hoc, _⟩ := flattenTree_complete _ hok.1 hok.2 a y ha128 hres
      exact ⟨o, ho, ha128, hoc⟩

/-- C4 as stated is falsified when the walk meets a leaf holding the
empty string: Python's `if not node.child[bit]` treats that slot as
absent, so the code installs a fresh node with both children empty and
drops the old label, instead of replacing the leaf by the
split-with-copy node the claim describes.  Concretely, inserting
`C000::/2` into a node whose bit-1 slot is the leaf `""` does not
produce the split node (whose complement child would hold the copied
leaf `""`). -/
theorem claim_C4_counterexample :
    getChild (Slot.empty, Slot.leaf "") (((2 ^ 127 + 2 ^ 126) >>> 127) &&& 1) =
      Slot.leaf "" ∧
    setItemGo (2 ^ 127 + 2 ^ 126) 2 "2" 127 (Slot.empty, Slot.leaf "") =
      (Slot.empty, Slot.internal Slot.empty (Slot.leaf "2")) ∧
    setItemGo (2 ^ 127 + 2 ^ 126) 2 "2" 127 (Slot.empty, Slot.leaf "") ≠
      setChild (Slot.empty, Slot.leaf "") (((2 ^ 127 + 2 ^ 126) >>> 127) &&& 1)
        (Slot.internal
          (setItemGo (2 ^ 127 + 2 ^ 126) 2 "2" 126
            (splitNode (2 ^ 127 + 2 ^ 126) 2 "" 127)).1
          (setItemGo (2 ^ 127 + 2 ^ 126) 2 "2" 126
            (splitNode (2 ^ 127 + 2 ^ 126) 2 "" 127)).2) := by
  refine ⟨by decide, by decide, by decide⟩

/-- C4 (insertion walk steps), amended: meeting a leaf with a
*nonempty* label during the walk replaces it by a new internal node
built from the old label: the child at the complement of the next bit
always receives the old label; the child at the next bit receives it
exactly when more than one significant bit remains below the current
depth (`(d + 1) - (128 - L) > 1` remaining significant bits), and is
left empty otherwise.  A slot holding an empty-string leaf is falsy in
Python and is instead replaced by a fresh node with both children
empty, dropping the old label.  After consuming all but the last
significant bit, the label is written into the slot selected by the
last significant bit, unconditionally overwriting that slot's previous
content. -/
theorem claim_C4_amended (pfx L : Nat) (x old : String) (d : Nat)
    (n : Slot × Slot) (hL : L ≤ 128) :
    (¬(d + 1 ≤ 128 - L) → getChild n ((pfx >>> (d + 1)) &&& 1) = Slot.leaf old →
      old ≠ "" →
      (setItemGo pfx L x (d + 1) n = setChild n ((pfx >>> (d + 1)) &&& 1)
          (Slot.internal (setItemGo pfx L x d (splitNode pfx L old (d + 1))).1
            (setItemGo pfx L x d (splitNode pfx L old (d + 1))).2) ∧
        getChild (splitNode pfx L old (d + 1)) (1 - ((pfx >>> d) &&& 1)) = Slot.leaf old ∧
        (1 < (d + 1) - (128 - L) →
          getChild (splitNode pfx L old (d + 1)) ((pfx >>> d) &&& 1) = Slot.leaf old) ∧
        (¬ 1 < (d + 1) - (128 - L) →
          getChild (splitNode pfx L old (d + 1)) ((pfx >>> d) &&& 1) = Slot.empty))) ∧
    (¬(d + 1 ≤ 128 - L) → getChild n ((pfx >>> (d + 1)) &&& 1) = Slot.leaf "" →
      setItemGo pfx L x (d + 1) n = setChild n ((pfx >>> (d + 1)) &&& 1)
        (Slot.internal (setItemGo pfx L x d (Slot.empty, Slot.empty)).1
          (setItemGo pfx L x d (Slot.empty, Slot.empty)).2)) ∧
    (d ≤ 128 - L →
      setItemGo pfx L x d n = setChild n ((pfx >>> (128 - L)) &&& 1) (Slot.leaf x)) := by
  refine ⟨?_, ?_, ?_⟩
  · intro hd hc hold
    have hnb : (pfx >>> d) &&& 1 = 0 ∨ (pfx >>> d) &&& 1 = 1 := by
      rw [shiftand_eq]; omega
    have hguard : 129 - L < d + 1 ↔ 1 < (d + 1) - (128 - L) := by omega
    refine ⟨setItemGo_step_leaf pfx L x d n old hd hc hold, ?_, ?_, ?_⟩
    · rw [splitNode]
      simp only [Nat.add_sub_cancel]
      rcases hnb with hnb | hnb <;> rw [hnb] <;>
        by_cases hg : 129 - L < d + 1 <;>
          simp [hg, setChild, getChild]
    · intro h1
      rw [splitNode]
      simp only [Nat.add_sub_cancel]
      rcases hnb with hnb | hnb <;> rw [hnb] <;>
        simp [hguard.mpr h1, setChild, getChild]
    · intro h1
      rw [splitNode]
      simp only [Nat.add_sub_cancel]
      have hg : ¬ 129 - L < d + 1 := fun hgg => h1 (hguard.mp hgg)
      rcases hnb with hnb | hnb <;> rw [hnb] <;>
        simp [hg, setChild, getChild]
  · intro hd hc
    exact setItemGo_step_leafE pfx L x d n hd hc
  · intro hd
    exact setItemGo_base pfx L x d n hd

/-- C5 as stated is falsified by the code: after inserting `8000::/1`
and then `C000::/2` into a fresh trie, the branch sits in the root's
bit-1 slot (the first bit of `8000::` is 1) and the bit-0 slot is
empty — not the other way around. -/
theorem claim_C5_counterexample :
    ¬ ∃ c0 c1 : Slot,
        (buildTree [((2 ^ 127, 1), "1"), ((2 ^ 127 + 2 ^ 126, 2), "2")]).1 =
          Slot.internal c0 c1 ∧
        (buildTree [((2 ^ 127, 1), "1"), ((2 ^ 127 + 2 ^ 126, 2), "2")]).2 =
          Slot.empty := by
  rintro ⟨c0, c1, h1, -⟩
  have hb : (buildTree [((2 ^ 127, 1), "1"), ((2 ^ 127 + 2 ^ 126, 2), "2")]).1 =
      Slot.empty := by decide
  rw [hb] at h1
  exact Slot.noConfusion h1

/-- C5, amended: after inserting `8000::/1` with label "1" and then
`C000::/2` with label "2" into a fresh trie, the root's bit-0 slot is
empty and its bit-1 slot holds the `8000::` branch as an internal node
whose bit-0 slot is leaf "1" and whose bit-1 slot is leaf "2". -/
theorem claim_C5_amended :
    buildTree [((2 ^ 127, 1), "1"), ((2 ^ 127 + 2 ^ 126, 2), "2")] =
      (Slot.empty, Slot.internal (Slot.leaf "1") (Slot.leaf "2")) := by
  decide

/-- C6 (ascending-length iteration): a fresh store is well formed,
every store operation (`add`, `load`, `reload`) preserves
well-formedness, and for every well-formed store the iteration is the
in-order concatenation of the buckets from length 0 to 128 and yields
records of non-decreasing prefix length. -/
theorem claim_C6_ascending_order :
    WF PrefixStore.new ∧
    (∀ (s : PrefixStore) (net : Nat × Nat) (asn : String), WF s → WF (s.add net asn)) ∧
    (∀ (pn : String → Option (Nat × Nat)) (lines : List (List String)) (s s' : PrefixStore),
      WF s → loadLines pn s lines = Except.ok s' → WF s') ∧
    (∀ (s : PrefixStore) (t : Slot × Slot), WF s → WF (s.reload t)) ∧
    (∀ s : PrefixStore, WF s → s.iterate = s.levels.flatten ∧
      List.Pairwise (fun e1 e2 : Entry => e1.1.2 ≤ e2.1.2) s.iterate) :=
  ⟨WF_new, WF_add,
    fun pn lines s s' h hok => loadLines_WF pn lines s s' h hok,
    WF_reload,
    fun s h => ⟨rfl, WF_iterate_sorted s h⟩⟩

/-- C7 as stated is falsified twice over.  By the single input `::/0`
(vacuously pairwise non-overlapping): the flattened output is `::/1`,
not the input set.  And by the single input `8000::/1` ↦ "": the
empty-string leaf is falsy and the flattened output is empty. -/
theorem claim_C7_counterexample :
    (¬ List.Perm (flattenTree (buildTree [(((0 : Nat), (0 : Nat)), "X")]))
      [(((0 : Nat), (0 : Nat)), "X")]) ∧
    (¬ List.Perm (flattenTree (buildTree [((2 ^ 127, 1), "")]))
      [((2 ^ 127, 1), "")]) := by
  exact ⟨by decide, by decide⟩

/-- C7 (round trip), amended: for input records with lengths between 1
and 128 and nonempty labels that are pairwise non-overlapping (in the
glossary's sense: neither prefix covers the other's network address),
loaded in ascending-length order, flattening the built trie reproduces
exactly the input records, up to reordering. -/
theorem claim_C7_amended (l : List Entry)
    (hv : ∀ e ∈ l, validEntry e ∧ 1 ≤ e.1.2)
    (hlab : ∀ e ∈ l, e.2 ≠ "")
    (hsort : List.Pairwise (fun e1 e2 : Entry => e1.1.2 ≤ e2.1.2) l)
    (hdisj : List.Pairwise (fun e1 e2 : Entry => ¬ overlapE e1 e2) l) :
    List.Perm (flattenTree (buildTree l)) l := by
  have h := buildClean l (Slot.empty, Slot.empty) [] 0 hv hlab hsort hdisj
    (by intro e he e' _ _; simp at he) trivial trivial
    (fun e' _ => Nat.zero_le _) (List.Perm.refl [])
  simpa using h

/-- C9 (parse failure aborts the load): if every line of the input
stream is well formed the load succeeds; if any line has a malformed
prefix literal or a missing label token the whole load aborts with a
parse error, producing no store. -/
theorem claim_C9_parse_abort (pn : String → Option (Nat × Nat))
    (lines : List (List String)) (s : PrefixStore) :
    ((∀ ln ∈ lines, (lineParse pn ln).isSome) →
      ∃ s', loadLines pn s lines = Except.ok s') ∧
    ((∃ ln ∈ lines, lineParse pn ln = none) →
      ∃ err, loadLines pn s lines = Except.error err) := by
  induction lines generalizing s with
  | nil =>
    refine ⟨fun _ => ⟨s, rfl⟩, ?_⟩
    rintro ⟨ln, hln, -⟩
    simp at hln
  | cons ln rest ih =>
    constructor
    · intro h
      obtain ⟨⟨net, asn⟩, hv⟩ := Option.isSome_iff_exists.mp (h ln (by simp))
      have : loadLines pn s (ln :: rest) = loadLines pn (s.add net asn) rest := by
        simp only [loadLines, hv]
      rw [this]
      exact (ih (s.add net asn)).1 (fun ln' h' => h ln' (by simp [h']))
    · rintro ⟨ln', hln', hnone⟩
      rcases List.mem_cons.mp hln' with rfl | hln'
      · refine ⟨ParseErr.malformed ln', ?_⟩
        simp only [loadLines, hnone]
      · cases hlp : lineParse pn ln with
        | none =>
          refine ⟨ParseErr.malformed ln, ?_⟩
          simp only [loadLines, hlp]
        | some v =>
          obtain ⟨net, asn⟩ := v
          have : loadLines pn s (ln :: rest) = loadLines pn (s.add net asn) rest := by
            simp only [loadLines, hlp]
          rw [this]
          exact (ih (s.add net asn)).2 ⟨ln', hln', hnone⟩

/-- C10 as stated is falsified at the empty label: inserting `::/0`
with label "" writes the empty string into the root's bit-0 slot, but
the flattener skips the falsy leaf, so the flattened output is empty,
not the single record `::/1` with that label. -/
theorem claim_C10_counterexample :
    buildTree [((0, 0), "")] = (Slot.leaf "", Slot.empty) ∧
    flattenTree (buildTree [((0, 0), "")]) = [] ∧
    flattenTree (buildTree [((0, 0), "")]) ≠ [(((0 : Nat), (1 : Nat)), "")] := by
  refine ⟨by decide, by decide, by decide⟩

/-- C10 (length-0 insertion), amended: inserting `::/0` with label `x`
into a fresh trie performs no walk and writes the label only into the
root's bit-0 slot; when `x` is nonempty the flattened output is the
single record `::/1` with label `x`, and the bit-1 half of the address
space is absent.  (The empty-string label is written but is falsy and
invisible to the flattener.) -/
theorem claim_C10_amended (x : String) :
    buildTree [((0, 0), x)] = (Slot.leaf x, Slot.empty) ∧
      (x ≠ "" → flattenTree (buildTree [((0, 0), x)]) = [((0, 1), x)]) := by
  have h1 : buildTree [((0, 0), x)] = (Slot.leaf x, Slot.empty) := by
    rw [buildTree, List.foldl_cons, List.foldl_nil,
      show insEntry (Slot.empty, Slot.empty) ((0, 0), x) =
        setItemGo 0 0 x 127 (Slot.empty, Slot.empty) from rfl,
      setItemGo_base 0 0 x 127 _ (by omega)]
    have h0 : ((0 : Nat) >>> (128 - 0)) &&& 1 = 0 := by simp
    rw [h0, setChild_zero]
  refine ⟨h1, fun hx => ?_⟩
  rw [h1]
  simp [flattenTree, visitNode, hx]

/-! ### Witnesses -/

/-- Witness for the amended C1: inputs `8000::/1` ↦ "1" and
`C000::/2` ↦ "2", address `C000::`. -/
theorem claim_C1_witness :
    (∃ o ∈ flattenTree (buildTree [((2 ^ 127, 1), "1"), ((2 ^ 127 + 2 ^ 126, 2), "2")]),
      covers o.1.1 o.1.2 (2 ^ 127 + 2 ^ 126)) ∧
    (∀ o ∈ flattenTree (buildTree [((2 ^ 127, 1), "1"), ((2 ^ 127 + 2 ^ 126, 2), "2")]),
      covers o.1.1 o.1.2 (2 ^ 127 + 2 ^ 126) → o.2 = "2") :=
  claim_C1_amended
    [((2 ^ 127, 1), "1"), ((2 ^ 127 + 2 ^ 126, 2), "2")]
    (by decide) (by decide) (2 ^ 127 + 2 ^ 126) (by decide)
    ((2 ^ 127, 1), "1") ((2 ^ 127 + 2 ^ 126, 2), "2")
    (by decide) (by decide) (by decide) (by decide) (by decide) (by decide)
    (by decide) (by decide)

/-- Witness for C2 on the one-record input `::/1` ↦ "A". -/
theorem claim_C2_witness :
    List.Pairwise (fun o1 o2 : Entry =>
        Disjoint (addrSet o1) (addrSet o2) ∧
          ¬ addrSet o1 ⊆ addrSet o2 ∧ ¬ addrSet o2 ⊆ addrSet o1)
      (flattenTree (buildTree [(((0 : Nat), (1 : Nat)), "A")])) :=
  claim_C2_output_disjoint [(((0 : Nat), (1 : Nat)), "A")] (by decide)

/-- Witness for the amended C3 on the one-record input `8000::/1`. -/
theorem claim_C3_witness :
    (⋃ e ∈ flattenTree (buildTree [((2 ^ 127, 1), "1")]), addrSet e) =
      ⋃ e ∈ [(((2 ^ 127 : Nat), (1 : Nat)), "1")], addrSet e :=
  claim_C3_amended [((2 ^ 127, 1), "1")] (by decide) (by decide) (by decide)

/-- Witness for the amended C4: inserting `C000::/2` at walk depth 127
onto the nonempty leaf left by `8000::/1` splits it; the copied label
goes to the complement child only, since exactly one significant bit
remains. -/
theorem claim_C4_witness :
    setItemGo (2 ^ 127 + 2 ^ 126) 2 "2" 127 (Slot.empty, Slot.leaf "1") =
      setChild (Slot.empty, Slot.leaf "1") (((2 ^ 127 + 2 ^ 126) >>> 127) &&& 1)
        (Slot.internal
          (setItemGo (2 ^ 127 + 2 ^ 126) 2 "2" 126
            (splitNode (2 ^ 127 + 2 ^ 126) 2 "1" 127)).1
          (setItemGo (2 ^ 127 + 2 ^ 126) 2 "2" 126
            (splitNode (2 ^ 127 + 2 ^ 126) 2 "1" 127)).2) ∧
    getChild (splitNode (2 ^ 127 + 2 ^ 126) 2 "1" 127)
      (1 - (((2 ^ 127 + 2 ^ 126) >>> 126) &&& 1)) = Slot.leaf "1" ∧
    getChild (splitNode (2 ^ 127 + 2 ^ 126) 2 "1" 127)
      (((2 ^ 127 + 2 ^ 126) >>> 126) &&& 1) = Slot.empty := by
  have h := (claim_C4_amended (2 ^ 127 + 2 ^ 126) 2 "2" "1" 126
    (Slot.empty, Slot.leaf "1") (by decide)).1 (by decide) (by decide) (by decide)
  exact ⟨h.1, h.2.1, h.2.2.2 (by decide)⟩

/-- Witness for C6: a store holding one record of length 1. -/
theorem claim_C6_witness :
    WF ((PrefixStore.new.add (0, 1) "A").reload (Slot.empty, Slot.empty)) ∧
    List.Pairwise (fun e1 e2 : Entry => e1.1.2 ≤ e2.1.2)
      ((PrefixStore.new.add (0, 1) "A").iterate) :=
  ⟨claim_C6_ascending_order.2.2.2.1 _ _
      (claim_C6_ascending_order.2.1 _ _ _ claim_C6_ascending_order.1),
    (claim_C6_ascending_order.2.2.2.2 _
      (claim_C6_ascending_order.2.1 _ _ _ claim_C6_ascending_order.1)).2⟩

/-- Witness for the amended C7: the disjoint inputs `8000::/1` ↦ "a"
and `4000::/2` ↦ "b" are reproduced exactly. -/
theorem claim_C7_witness :
    List.Perm (flattenTree (buildTree [((2 ^ 127, 1), "a"), ((2 ^ 126, 2), "b")]))
      [((2 ^ 127, 1), "a"), ((2 ^ 126, 2), "b")] :=
  claim_C7_amended [((2 ^ 127, 1), "a"), ((2 ^ 126, 2), "b")]
    (by decide) (by decide) (by decide) (by decide)

/-- Witness for the amended C10 at the nonempty label "X". -/
theorem claim_C10_witness :
    buildTree [((0, 0), "X")] = (Slot.leaf "X", Slot.empty) ∧
      flattenTree (buildTree [((0, 0), "X")]) = [((0, 1), "X")] :=
  ⟨(claim_C10_amended "X").1, (claim_C10_amended "X").2 (by decide)⟩

/-- Witness for C9: with a prefix parser accepting exactly the literal
"ok", a well-formed stream loads and a malformed one aborts. -/
theorem claim_C9_witness :
    (∃ s', loadLines (fun s => if s = "ok" then some ((0, 0) : Nat × Nat) else none)
        PrefixStore.new [["ok", "A"]] = Except.ok s') ∧
    (∃ err, loadLines (fun s => if s = "ok" then some ((0, 0) : Nat × Nat) else none)
        PrefixStore.new [["bad", "A"]] = Except.error err) :=
  ⟨(claim_C9_parse_abort _ [["ok", "A"]] PrefixStore.new).1 (by decide),
    (claim_C9_parse_abort _ [["bad", "A"]] PrefixStore.new).2 ⟨["bad", "A"], by decide, by decide⟩⟩
